import Mathlib

/-!
Verification of the amplitude-addressing core of the MOSQ statevector
simulator (`src/qiskit-aer/src/simulators/statevector/indexes.hpp` and
`src/src_code_MOSQ/statevector_state.hpp`).

The C++ is shallowly embedded: `uint64_t` values become `ℕ` with an explicit
`% 2 ^ 64` at the one operation that can wrap (the left shift inside the
`index0` loop); `std::vector` / `areg_t` become `List`; `double` scalars that
only steer control flow or fill matrix slots become `ℚ` (or symbolic scalar
values); calls into the external amplitude container are reified as explicit
action values.
-/

namespace MOSQ

/-! Bit-index engine (`indexes.hpp`) -/

/-- Lookup table `BITS` from `indexes.hpp`: entry `i` is `2^i`
(the source tabulates the 64 entries `i = 0, …, 63`). -/
def BITS (i : ℕ) : ℕ := 2 ^ i

/-- Lookup table `MASKS` from `indexes.hpp`: entry `i` is `2^i - 1`
(the source tabulates the 64 entries `i = 0, …, 63`). -/
def MASKS (i : ℕ) : ℕ := 2 ^ i - 1

/-- One iteration of the loop body of `index0` (`indexes.hpp`, lines 216-226):

    lowbits = retval & MASKS[qubits_sorted[j]];
    retval >>= qubits_sorted[j];
    retval <<= qubits_sorted[j] + 1;
    retval |= lowbits;

The left shift is a `uint64_t` shift, hence the explicit `% 2 ^ 64`; none of
the other operations can produce a value exceeding 64 bits when their
operands do not. -/
def insertZero (retval : ℕ) (q : ℕ) : ℕ :=
  (((retval >>> q) <<< (q + 1)) % 2 ^ 64) ||| (retval &&& MASKS q)

/-- `index0(qubits_sorted, k)` from `indexes.hpp` (lines 216-226): inserts a
zero bit at each position named in `qubits_sorted`, iterating the list in the
given (ascending) order. -/
def index0 (qubits_sorted : List ℕ) (k : ℕ) : ℕ :=
  qubits_sorted.foldl insertZero k

/-- The variable-size `indexes(qubits, qubits_sorted, k)` from `indexes.hpp`
(lines 242-255).  The source allocates `BITS[N]` slots with
`N = qubits_sorted.size()`, writes `ret[0] = index0(qubits_sorted, k)` and for
`i = 0, …, N-1` doubles the filled prefix (`n = BITS[i]` entries) by
`ret[n+j] = ret[j] | BITS[qubits[i]]`.  Appending the OR-image of the filled
prefix is exactly that doubling step. -/
def indexes (qubits qubits_sorted : List ℕ) (k : ℕ) : List ℕ :=
  (List.range qubits_sorted.length).foldl
    (fun ret i => ret ++ ret.map (fun r => r ||| BITS (qubits.getD i 0)))
    [index0 qubits_sorted k]

/-- The fixed-size `indexes<N>(qs, qubits_sorted, k)` from `indexes.hpp`
(lines 228-240).  Identical doubling construction, except that the loop bound
`N` is the compile-time size of the `areg_t<N>` argument `qs` (the template
forces both argument arrays to that same size). -/
def indexesFixed (qs qubits_sorted : List ℕ) (k : ℕ) : List ℕ :=
  (List.range qs.length).foldl
    (fun ret i => ret ++ ret.map (fun r => r ||| BITS (qs.getD i 0)))
    [index0 qubits_sorted k]

/-- Proof-internal view of the doubling construction as a fold over the qubit
list itself (rather than over `List.range N` with `getD` accesses). -/
def buildBlock (b0 : ℕ) (qs : List ℕ) : List ℕ :=
  qs.foldl (fun ret q => ret ++ ret.map (fun r => r ||| BITS q)) [b0]

/-- OR of the table entries `BITS[q]` over a qubit list (the "all target
bits" mask); used to state which bit positions a pattern may occupy. -/
def orFold (qs : List ℕ) : ℕ :=
  qs.foldr (fun q a => BITS q ||| a) 0

/-- The subset of a qubit list selected by the binary digits of `j`
(digit `i` of `j` selects element `i` of the list). -/
def sel : List ℕ → ℕ → List ℕ
  | [], _ => []
  | q :: rest, j => (if j % 2 = 1 then [q] else []) ++ sel rest (j / 2)

/-- The OR of `BITS[q]` over the selected subset `sel qs j`; entry `j` of an
index block differs from entry `0` exactly by this value. -/
def orSel : List ℕ → ℕ → ℕ
  | [], _ => 0
  | q :: rest, j => (if j % 2 = 1 then BITS q else 0) ||| orSel rest (j / 2)

/-- Modelled from the spec: deleting the bit at position `q` (the inverse of
one `insertZero` step).  No such function exists in the source; the spec uses
it to describe reading back the spectator bits of a full index. -/
def deleteBit (f : ℕ) (q : ℕ) : ℕ :=
  ((f >>> (q + 1)) <<< q) ||| (f &&& MASKS q)

/-- Modelled from the spec: reading back the spectator bits of a full index
by deleting the inserted zero bits, processing the sorted qubit positions in
descending order. -/
def removeBits (qubits_sorted : List ℕ) (f : ℕ) : ℕ :=
  qubits_sorted.foldr (fun q acc => deleteBit acc q) f

/-! Traversal primitives (`indexes.hpp`) -/

/-- The sequential loop of the qubit-list `apply_lambda` (`indexes.hpp`,
lines 307-331, `omp_threads <= 1` branch): iterates `k` upward while
`k < END`, resolving the index block for each `k`.  The returned list is the
trace of arguments passed to the lambda, in invocation order. -/
def applyLoop (qubits qubits_sorted : List ℕ) (END : ℕ) (k : ℕ) : List (List ℕ) :=
  if k < END then indexes qubits qubits_sorted k :: applyLoop qubits qubits_sorted END (k + 1)
  else []
termination_by END - k

/-- The qubit-list `apply_lambda(start, stop, omp_threads, func, qubits)`
(`indexes.hpp`, lines 307-331) restricted to its sequential branch
(`omp_threads <= 1`): `END = stop >> qubits.size()`, the sorted qubit list is
derived once before the loop, and the loop yields one index block per `k`.
The `omp_threads > 1` branch runs the same iterations concurrently and is out
of scope of this embedding. -/
def apply_lambda_seq (start stop : ℕ) (qubits : List ℕ) : List (List ℕ) :=
  let END := stop >>> qubits.length
  let qubits_sorted := qubits.mergeSort (fun a b => a ≤ b)
  applyLoop qubits qubits_sorted END start

/-- The inline parity computation of `apply_lambda_MOSQ` (`indexes.hpp`,
lines 340-344): `parity ^= ((k >> index) & 1)` over the qubit list. -/
def foldParity (qubits : List ℕ) (k : ℕ) : Bool :=
  qubits.foldl (fun parity index => xor parity (((k >>> index) &&& 1) == 1)) false

/-- The sequential loop of `apply_lambda_MOSQ` (`indexes.hpp`, lines
333-359, `omp_threads <= 1` branch): iterates `k` in `[start, stop)` and
forwards `k` to the lambda only when the parity of the selected bits is 1.
The returned list is the trace of forwarded `k`, in invocation order. -/
def mosqLoop (qubits : List ℕ) (stop : ℕ) (k : ℕ) : List ℕ :=
  if k < stop then
    (if foldParity qubits k then [k] else []) ++ mosqLoop qubits stop (k + 1)
  else []
termination_by stop - k

/-- `apply_lambda_MOSQ(start, stop, omp_threads, func, qubits)` (`indexes.hpp`,
lines 333-359) restricted to its sequential branch (`omp_threads <= 1`). -/
def apply_lambda_MOSQ_seq (start stop : ℕ) (qubits : List ℕ) : List ℕ :=
  mosqLoop qubits stop start

/-! Kraus channel sampler (`statevector_state.hpp`, `apply_kraus`) -/

/-- Observable outcome of one `apply_kraus` call: either the early return for
an empty operator list (no state update, no error), or the single matrix
application the call performs.  `triggered j mat p` records that `kmats[j]`
was applied rescaled by `1/sqrt(p)` after its probability `p` was computed;
`fallback mat accum` records that the last operator was applied rescaled by
`1/sqrt(1 - accum)`. -/
inductive KrausResult (α : Type) where
  | noop : KrausResult α
  | triggered (j : ℕ) (mat : α) (p : ℚ) : KrausResult α
  | fallback (mat : α) (accum : ℚ) : KrausResult α
deriving DecidableEq

/-- The probability loop of `apply_kraus` (`statevector_state.hpp`, lines
1234-1251) plus the `complete == false` epilogue (lines 1253-1259).  `normf`
stands for `j ↦ qreg_.norm(qubits, vectorize_matrix(kmats[j]))`; the state is
not modified until the single application that ends the call, so `normf` is
fixed for the whole loop.  `r` is the uniform deviate drawn once before the
loop. -/
def krausLoop {α : Type} (kmats : List α) (lastMat : α) (normf : α → ℚ) (r : ℚ)
    (j : ℕ) (accum : ℚ) : KrausResult α :=
  if h : j < kmats.length - 1 then
    if accum + normf (kmats.get ⟨j, lt_of_lt_of_le h (Nat.sub_le _ _)⟩) > r then
      KrausResult.triggered j (kmats.get ⟨j, lt_of_lt_of_le h (Nat.sub_le _ _)⟩)
        (normf (kmats.get ⟨j, lt_of_lt_of_le h (Nat.sub_le _ _)⟩))
    else krausLoop kmats lastMat normf r (j + 1)
      (accum + normf (kmats.get ⟨j, lt_of_lt_of_le h (Nat.sub_le _ _)⟩))
  else KrausResult.fallback lastMat accum
termination_by kmats.length - 1 - j
decreasing_by omega

/-- `apply_kraus(qubits, kmats, rng)` (`statevector_state.hpp`, lines
1215-1260): empty list returns early; otherwise the loop over the first
`N - 1` operators runs with `accum = 0`, and `kmats.back()` is the fallback
operator. -/
def apply_kraus {α : Type} (kmats : List α) (normf : α → ℚ) (r : ℚ) : KrausResult α :=
  match kmats with
  | [] => KrausResult.noop
  | m :: rest => krausLoop (m :: rest) ((m :: rest).getLast (List.cons_ne_nil m rest)) normf r 0 0

/-- Partial sum of the first `j` operator probabilities, as accumulated by
the `apply_kraus` loop. -/
def partialSum {α : Type} (normf : α → ℚ) (kmats : List α) (j : ℕ) : ℚ :=
  ((kmats.take j).map normf).sum

/-! Measurement / reset update (`statevector_state.hpp`,
`measure_reset_update`) -/

/-- Symbolic scalar values appearing in the matrices that
`measure_reset_update` builds: `0.`, `1.`, and `1. / std::sqrt(meas_prob)`. -/
inductive SVal where
  | zero : SVal
  | one : SVal
  | invSqrt (p : ℚ) : SVal
deriving DecidableEq

/-- One call into the external amplitude container made by
`measure_reset_update`: `apply_diagonal_matrix(qubits, d)`,
`apply_mcx(qubits)`, or `apply_matrix(qubits, m)` (vectorized row-major
matrix). -/
inductive MRAction where
  | diag (qubits : List ℕ) (entries : List SVal) : MRAction
  | mcx (qubits : List ℕ) : MRAction
  | matrix (qubits : List ℕ) (entries : List SVal) : MRAction
deriving DecidableEq

/-- The vectorized permutation matrix built by `measure_reset_update`
(`statevector_state.hpp`, lines 1106-1113): all zeros, then
`perm[final*dim + meas] = 1`, `perm[meas*dim + final] = 1`, and
`perm[j*dim + j] = 1` for every `j` other than `final` and `meas`. -/
def buildPerm (dim final_state meas_state : ℕ) : List SVal :=
  let base :=
    ((List.replicate (dim * dim) SVal.zero).set (final_state * dim + meas_state) SVal.one).set
      (meas_state * dim + final_state) SVal.one
  (List.range dim).foldl
    (fun perm j =>
      if j ≠ final_state ∧ j ≠ meas_state then perm.set (j * dim + j) SVal.one else perm)
    base

/-- `measure_reset_update(qubits, final_state, meas_state, meas_prob)`
(`statevector_state.hpp`, lines 1073-1118).  The returned list is the trace
of amplitude-container calls, in order. -/
def measure_reset_update (qubits : List ℕ) (final_state meas_state : ℕ)
    (meas_prob : ℚ) : List MRAction :=
  if qubits.length = 1 then
    MRAction.diag qubits
        ((List.replicate 2 SVal.zero).set meas_state (SVal.invSqrt meas_prob)) ::
      (if final_state ≠ meas_state then [MRAction.mcx qubits] else [])
  else
    MRAction.diag qubits
        ((List.replicate (2 ^ qubits.length) SVal.zero).set meas_state
          (SVal.invSqrt meas_prob)) ::
      (if final_state ≠ meas_state then
        [MRAction.matrix qubits (buildPerm (2 ^ qubits.length) final_state meas_state)]
      else [])

/-! Density extraction (`statevector_state.hpp`, `vec2density` and
`apply_save_density_matrix`) -/

/-- Complex multiplication on `ℚ × ℚ` (real part, imaginary part). -/
def cmulQ (a b : ℚ × ℚ) : ℚ × ℚ :=
  (a.1 * b.1 - a.2 * b.2, a.1 * b.2 + a.2 * b.1)

/-- Complex conjugation on `ℚ × ℚ`. -/
def cconjQ (a : ℚ × ℚ) : ℚ × ℚ := (a.1, -a.2)

/-- One outer-product term of `vec2density`'s general path: entry
`(row, col)` of `vec[inds[row]] * conj(vec[inds[col]])` for the index block
`inds` of reduced index `k`. -/
def blockOuter (qubits qubits_sorted : List ℕ) (vec : List (ℚ × ℚ))
    (k row col : ℕ) : ℚ × ℚ :=
  let inds := indexes qubits qubits_sorted k
  cmulQ (vec.getD (inds.getD row 0) (0, 0)) (cconjQ (vec.getD (inds.getD col 0) (0, 0)))

/-- `vec2density(qubits, vec)` (`statevector_state.hpp`, lines 732-775), as a
function of the matrix position `(row, col)`.  The fast path (full sorted
qubit list) enumerates `rowcol` and sets
`densmat(rowcol >> N, rowcol & MASKS[N]) = vec[row] * conj(vec[col])`, i.e.
assigns each `(row, col)` with `row, col < 2^N` exactly once; the general
path initializes with the block of reduced index `0` and accumulates the
blocks of `k = 1, …, 2^(M-N) - 1` by addition (`ℚ × ℚ` addition is
componentwise, matching complex addition). -/
def vec2density (num_qubits : ℕ) (qubits : List ℕ) (vec : List (ℚ × ℚ))
    (row col : ℕ) : ℚ × ℚ :=
  if qubits.length = num_qubits ∧ qubits = qubits.mergeSort (fun a b => a ≤ b) then
    cmulQ (vec.getD row (0, 0)) (cconjQ (vec.getD col (0, 0)))
  else
    (List.range' 1 (2 ^ (num_qubits - qubits.length) - 1)).foldl
      (fun acc k =>
        acc + blockOuter qubits (qubits.mergeSort (fun a b => a ≤ b)) vec k row col)
      (blockOuter qubits (qubits.mergeSort (fun a b => a ≤ b)) vec 0 row col)

/-- Modelled from the spec: `BaseState::qreg_.norm()` (the external amplitude
container's total-norm query, not part of this repository): the sum of the
squared magnitudes of all amplitudes. -/
def qregNorm (vec : List (ℚ × ℚ)) : ℚ :=
  (vec.map (fun a => a.1 * a.1 + a.2 * a.2)).sum

/-- `apply_save_density_matrix` (`statevector_state.hpp`, lines 684-700), as
a function of the saved matrix position: an empty qubit list saves the `1×1`
matrix holding `qreg_.norm()`; otherwise the matrix is
`density_matrix(qubits) = vec2density(qubits, copy_to_vector())`. -/
def apply_save_density_matrix (num_qubits : ℕ) (qubits : List ℕ)
    (vec : List (ℚ × ℚ)) (row col : ℕ) : ℚ × ℚ :=
  if qubits = [] then (qregNorm vec, 0)
  else vec2density num_qubits qubits vec row col

/-! Helper lemmas: single-bit views of `insertZero` and `deleteBit` -/

theorem high_false_of_lt {x n i : ℕ} (h : x < 2 ^ n) (hi : n ≤ i) :
    x.testBit i = false :=
  Nat.testBit_lt_two_pow (lt_of_lt_of_le h (Nat.pow_le_pow_right (by norm_num) hi))

theorem lt_two_pow_of_high_false {x n : ℕ}
    (h : ∀ i, n ≤ i → x.testBit i = false) : x < 2 ^ n := by
  have hx : x = x % 2 ^ n := by
    apply Nat.eq_of_testBit_eq
    intro i
    rw [Nat.testBit_mod_two_pow]
    by_cases hi : i < n
    · simp [hi]
    · simp [hi, h i (le_of_not_lt hi)]
  rw [hx]
  exact Nat.mod_lt _ (Nat.pos_pow_of_pos n (by norm_num))

theorem insertZero_testBit (r q p : ℕ) :
    (insertZero r q).testBit p =
      if p < q then r.testBit p
      else if q < p ∧ p < 64 then r.testBit (p - 1)
      else false := by
  unfold insertZero MASKS
  simp only [Nat.testBit_or, Nat.testBit_mod_two_pow, Nat.testBit_shiftLeft,
    Nat.testBit_shiftRight, Nat.testBit_and, Nat.testBit_two_pow_sub_one]
  rcases lt_trichotomy p q with h | h | h
  · have h1 : ¬(q + 1 ≤ p) := by omega
    simp [h, h1]
  · subst h
    have h1 : ¬(p + 1 ≤ p) := by omega
    simp [h1]
  · have h1 : ¬(p < q) := by omega
    by_cases h2 : p < 64
    · have h3 : q + 1 ≤ p := by omega
      have h4 : q + (p - (q + 1)) = p - 1 := by omega
      simp [h1, h2, h3, h4, h]
    · simp [h1, h2, h]

theorem deleteBit_testBit (f q p : ℕ) :
    (deleteBit f q).testBit p =
      if p < q then f.testBit p else f.testBit (p + 1) := by
  unfold deleteBit MASKS
  simp only [Nat.testBit_or, Nat.testBit_shiftLeft, Nat.testBit_shiftRight,
    Nat.testBit_and, Nat.testBit_two_pow_sub_one]
  by_cases h : p < q
  · have h1 : ¬(q ≤ p) := by omega
    simp [h, h1]
  · have h1 : q ≤ p := by omega
    have h2 : q + 1 + (p - q) = p + 1 := by omega
    simp [h, h1, h2]

theorem insertZero_lt {r m : ℕ} (q : ℕ) (hr : r < 2 ^ m) :
    insertZero r q < 2 ^ (m + 1) := by
  unfold insertZero
  have hA : ((r >>> q) <<< (q + 1)) % 2 ^ 64 < 2 ^ (m + 1) := by
    calc ((r >>> q) <<< (q + 1)) % 2 ^ 64 ≤ (r >>> q) <<< (q + 1) := Nat.mod_le _ _
      _ = r / 2 ^ q * (2 ^ q * 2) := by
          rw [Nat.shiftRight_eq_div_pow, Nat.shiftLeft_eq, pow_succ]
      _ = r / 2 ^ q * 2 ^ q * 2 := by ring
      _ ≤ r * 2 := by
          exact Nat.mul_le_mul_right 2 (Nat.div_mul_le_self r (2 ^ q))
      _ < 2 ^ m * 2 := by omega
      _ = 2 ^ (m + 1) := by rw [pow_succ]
  have hB : r &&& MASKS q < 2 ^ (m + 1) := by
    calc r &&& MASKS q ≤ r := Nat.and_le_left
      _ < 2 ^ m := hr
      _ ≤ 2 ^ (m + 1) := Nat.pow_le_pow_right (by norm_num) (by omega)
  exact Nat.or_lt_two_pow hA hB

theorem index0_cons (q : ℕ) (t : List ℕ) (k : ℕ) :
    index0 (q :: t) k = index0 t (insertZero k q) := rfl

theorem index0_append (l : List ℕ) (q k : ℕ) :
    index0 (l ++ [q]) k = insertZero (index0 l k) q := by
  simp [index0, List.foldl_append]

theorem removeBits_cons (q : ℕ) (t : List ℕ) (f : ℕ) :
    removeBits (q :: t) f = deleteBit (removeBits t f) q := rfl

theorem removeBits_append (l : List ℕ) (q f : ℕ) :
    removeBits (l ++ [q]) f = removeBits l (deleteBit f q) := by
  simp [removeBits, List.foldr_append]

theorem index0_lt (Qs : List ℕ) {k m : ℕ} (hk : k < 2 ^ m) :
    index0 Qs k < 2 ^ (m + Qs.length) := by
  induction Qs generalizing k m with
  | nil => simpa using hk
  | cons q t ih =>
      rw [index0_cons]
      have h1 : index0 t (insertZero k q) < 2 ^ (m + 1 + t.length) :=
        ih (insertZero_lt q hk)
      have h2 : m + 1 + t.length = m + (q :: t).length := by simp; omega
      rwa [h2] at h1

theorem index0_testBit_of_forall_lt (l : List ℕ) (r p : ℕ)
    (hall : ∀ e ∈ l, p < e) : (index0 l r).testBit p = r.testBit p := by
  induction l generalizing r with
  | nil => rfl
  | cons e t ih =>
      rw [index0_cons, ih _ (fun x hx => hall x (List.mem_cons_of_mem e hx))]
      rw [insertZero_testBit]
      simp [hall e (List.mem_cons_self e t)]

theorem index0_testBit_mem (Qs : List ℕ) (k : ℕ) (hs : Qs.Pairwise (· < ·))
    {q : ℕ} (hq : q ∈ Qs) : (index0 Qs k).testBit q = false := by
  induction Qs generalizing k with
  | nil => cases hq
  | cons a t ih =>
      rw [index0_cons]
      rcases List.mem_cons.mp hq with h | h
      · subst h
        rw [index0_testBit_of_forall_lt t _ q (List.pairwise_cons.mp hs).1]
        rw [insertZero_testBit]
        simp
      · exact ih _ (List.pairwise_cons.mp hs).2 h

theorem deleteBit_insertZero (r q : ℕ) (hr : r < 2 ^ 63) :
    deleteBit (insertZero r q) q = r := by
  apply Nat.eq_of_testBit_eq
  intro p
  rw [deleteBit_testBit]
  by_cases h : p < q
  · rw [if_pos h, insertZero_testBit, if_pos h]
  · rw [if_neg h, insertZero_testBit]
    have h1 : ¬(p + 1 < q) := by omega
    rw [if_neg h1]
    by_cases h2 : p + 1 < 64
    · have h3 : q < p + 1 ∧ p + 1 < 64 := ⟨by omega, h2⟩
      rw [if_pos h3]
      simp
    · have h3 : ¬(q < p + 1 ∧ p + 1 < 64) := by tauto
      rw [if_neg h3]
      exact (high_false_of_lt hr (by omega)).symm

theorem removeBits_index0 (Qs : List ℕ) {k m : ℕ} (hk : k < 2 ^ m)
    (hb : m + Qs.length ≤ 64) : removeBits Qs (index0 Qs k) = k := by
  induction Qs generalizing k m with
  | nil => rfl
  | cons q t ih =>
      rw [index0_cons, removeBits_cons]
      rw [ih (insertZero_lt q hk) (by simp at hb ⊢; omega)]
      exact deleteBit_insertZero k q
        (lt_of_lt_of_le hk (Nat.pow_le_pow_right (by norm_num) (by simp at hb; omega)))

/-! Helper lemmas: the doubling construction of `indexes` -/

theorem map_getD_range (l : List ℕ) :
    (List.range l.length).map (fun i => l.getD i 0) = l := by
  induction l with
  | nil => rfl
  | cons a t ih =>
      rw [List.length_cons, List.range_succ_eq_map, List.map_cons, List.map_map]
      have h : ((fun i => (a :: t).getD i 0) ∘ Nat.succ) = fun i => t.getD i 0 := by
        funext i
        rfl
      rw [h, ih]
      rfl

theorem indexes_eq_buildBlock (qubits qubits_sorted : List ℕ) (k : ℕ)
    (h : qubits.length = qubits_sorted.length) :
    indexes qubits qubits_sorted k = buildBlock (index0 qubits_sorted k) qubits := by
  unfold indexes buildBlock
  rw [← h]
  conv_rhs => rw [← map_getD_range qubits]
  rw [List.foldl_map]

theorem buildBlock_append (b0 : ℕ) (qs : List ℕ) (q : ℕ) :
    buildBlock b0 (qs ++ [q]) =
      buildBlock b0 qs ++ (buildBlock b0 qs).map (fun r => r ||| BITS q) := by
  simp [buildBlock, List.foldl_append]

theorem buildBlock_length (b0 : ℕ) (qs : List ℕ) :
    (buildBlock b0 qs).length = 2 ^ qs.length := by
  induction qs using List.reverseRecOn with
  | nil => rfl
  | append_singleton l q ih =>
      rw [buildBlock_append]
      simp only [List.length_append, List.length_map, ih, List.length_singleton]
      rw [pow_succ]
      omega

theorem getD_map_of_lt (f : ℕ → ℕ) (l : List ℕ) {n : ℕ} (h : n < l.length) :
    (l.map f).getD n 0 = f (l.getD n 0) := by
  rw [List.getD_eq_getElem _ _ (by simpa using h), List.getD_eq_getElem _ _ h]
  simp

theorem orSel_cons (q : ℕ) (t : List ℕ) (j : ℕ) :
    orSel (q :: t) j = (if j % 2 = 1 then BITS q else 0) ||| orSel t (j / 2) := rfl

theorem orSel_append_lt (qs : List ℕ) (q : ℕ) {j : ℕ} (h : j < 2 ^ qs.length) :
    orSel (qs ++ [q]) j = orSel qs j := by
  induction qs generalizing j with
  | nil =>
      have hj : j = 0 := by simpa using h
      subst hj
      simp [orSel]
  | cons a t ih =>
      rw [List.cons_append, orSel_cons, orSel_cons]
      rw [ih (by rw [List.length_cons, pow_succ] at h; omega)]

theorem orSel_append_ge (qs : List ℕ) (q : ℕ) {j : ℕ}
    (h1 : j < 2 ^ (qs.length + 1)) (h2 : 2 ^ qs.length ≤ j) :
    orSel (qs ++ [q]) j = orSel qs (j - 2 ^ qs.length) ||| BITS q := by
  induction qs generalizing j with
  | nil =>
      have hj : j = 1 := by
        simp only [List.length_nil, pow_zero, pow_one] at h1 h2
        omega
      subst hj
      simp [orSel]
  | cons a t ih =>
      have hp : (2 : ℕ) ^ (t.length + 1) = 2 * 2 ^ t.length := by
        rw [pow_succ]
        ring
      have hpp : (2 : ℕ) ^ (t.length + 1 + 1) = 2 * (2 * 2 ^ t.length) := by
        rw [pow_succ, pow_succ]
        ring
      rw [List.length_cons] at h1 h2
      rw [List.cons_append, orSel_cons, orSel_cons]
      simp only [List.length_cons]
      have hl : j / 2 < 2 ^ (t.length + 1) := by
        rw [hp]
        rw [hpp] at h1
        omega
      have hg : 2 ^ t.length ≤ j / 2 := by
        rw [hp] at h2
        omega
      rw [ih hl hg]
      have e1 : (j - 2 ^ (t.length + 1)) % 2 = j % 2 := by
        rw [hp] at h2 ⊢
        omega
      have e2 : (j - 2 ^ (t.length + 1)) / 2 = j / 2 - 2 ^ t.length := by
        rw [hp] at h2 ⊢
        omega
      simp only [e1, e2]
      rw [Nat.or_assoc]

theorem buildBlock_getD (qs : List ℕ) (b0 : ℕ) {j : ℕ} (h : j < 2 ^ qs.length) :
    (buildBlock b0 qs).getD j 0 = b0 ||| orSel qs j := by
  induction qs using List.reverseRecOn generalizing j with
  | nil =>
      have hj : j = 0 := by simpa using h
      subst hj
      simp [buildBlock, orSel]
  | append_singleton l q ih =>
      rw [buildBlock_append]
      have hlen : (buildBlock b0 l).length = 2 ^ l.length := buildBlock_length b0 l
      rw [List.length_append, List.length_singleton, pow_succ] at h
      by_cases hj : j < 2 ^ l.length
      · rw [List.getD_append _ _ _ _ (by rw [hlen]; exact hj)]
        rw [ih hj, orSel_append_lt l q hj]
      · have hge : 2 ^ l.length ≤ j := le_of_not_lt hj
        have hlt : j - 2 ^ l.length < 2 ^ l.length := by omega
        rw [List.getD_append_right _ _ _ _ (by rw [hlen]; exact hge), hlen]
        rw [getD_map_of_lt _ _ (by rw [buildBlock_length]; exact hlt)]
        rw [ih hlt, orSel_append_ge l q (by rw [pow_succ]; omega) hge]
        rw [Nat.or_assoc]

theorem sel_sublist (qs : List ℕ) (j : ℕ) : (sel qs j).Sublist qs := by
  induction qs generalizing j with
  | nil => exact List.Sublist.refl []
  | cons q t ih =>
      show ((if j % 2 = 1 then [q] else []) ++ sel t (j / 2)).Sublist (q :: t)
      by_cases hj : j % 2 = 1
      · rw [if_pos hj]
        exact List.Sublist.cons₂ q (ih (j / 2))
      · rw [if_neg hj]
        exact List.Sublist.cons q (ih (j / 2))

theorem orFold_cons (q : ℕ) (t : List ℕ) : orFold (q :: t) = BITS q ||| orFold t := rfl

theorem orSel_eq_orFold_sel (qs : List ℕ) (j : ℕ) : orSel qs j = orFold (sel qs j) := by
  induction qs generalizing j with
  | nil => rfl
  | cons q t ih =>
      rw [orSel_cons]
      show _ = orFold ((if j % 2 = 1 then [q] else []) ++ sel t (j / 2))
      by_cases hj : j % 2 = 1
      · rw [if_pos hj, if_pos hj, List.singleton_append, orFold_cons, ih]
      · rw [if_neg hj, if_neg hj, List.nil_append, ih, Nat.zero_or]

theorem orSel_testBit_not_mem (qs : List ℕ) (j : ℕ) {p : ℕ} (h : p ∉ qs) :
    (orSel qs j).testBit p = false := by
  induction qs generalizing j with
  | nil => exact Nat.zero_testBit p
  | cons q t ih =>
      rw [orSel_cons, Nat.testBit_or, ih _ (fun hm => h (List.mem_cons_of_mem q hm))]
      have hq : p ≠ q := fun he => h (he ▸ List.mem_cons_self q t)
      by_cases hj : j % 2 = 1
      · rw [if_pos hj]
        simp [BITS, Nat.testBit_two_pow_of_ne (Ne.symm hq)]
      · rw [if_neg hj]
        simp [Nat.zero_testBit]

theorem orSel_lt (qs : List ℕ) (j : ℕ) {M : ℕ} (h : ∀ q ∈ qs, q < M) :
    orSel qs j < 2 ^ M := by
  induction qs generalizing j with
  | nil => exact Nat.pos_pow_of_pos M (by norm_num)
  | cons q t ih =>
      rw [orSel_cons]
      refine Nat.or_lt_two_pow ?_ (ih _ (fun x hx => h x (List.mem_cons_of_mem q hx)))
      by_cases hj : j % 2 = 1
      · rw [if_pos hj]
        exact Nat.pow_lt_pow_right (by norm_num) (h q (List.mem_cons_self q t))
      · rw [if_neg hj]
        exact Nat.pos_pow_of_pos M (by norm_num)

theorem getD_mem_of_lt (l : List ℕ) {i : ℕ} (h : i < l.length) : l.getD i 0 ∈ l := by
  rw [List.getD_eq_getElem _ _ h]
  exact List.getElem_mem h

theorem orSel_testBit_getD (qs : List ℕ) (hnd : qs.Nodup) (j : ℕ) {i : ℕ}
    (hi : i < qs.length) : (orSel qs j).testBit (qs.getD i 0) = j.testBit i := by
  induction qs generalizing j i with
  | nil => simp at hi
  | cons q t ih =>
      rw [orSel_cons, Nat.testBit_or]
      have hqt : q ∉ t := (List.nodup_cons.mp hnd).1
      cases i with
      | zero =>
          rw [List.getD_cons_zero, orSel_testBit_not_mem t _ hqt, Bool.or_false,
            Nat.testBit_zero]
          by_cases hj : j % 2 = 1
          · rw [if_pos hj]
            have ht : (BITS q).testBit q = true := Nat.testBit_two_pow_self
            rw [ht]
            simp [hj]
          · rw [if_neg hj]
            rw [Nat.zero_testBit]
            simp [hj]
      | succ i =>
          rw [List.getD_cons_succ]
          have hit : i < t.length := by simpa using hi
          have hpt : t.getD i 0 ∈ t := getD_mem_of_lt t hit
          have hpq : t.getD i 0 ≠ q := fun he => hqt (he ▸ hpt)
          rw [ih (List.nodup_cons.mp hnd).2 _ hit]
          have hc : (if j % 2 = 1 then BITS q else 0).testBit (t.getD i 0) = false := by
            by_cases hj : j % 2 = 1
            · rw [if_pos hj]
              exact Nat.testBit_two_pow_of_ne (Ne.symm hpq)
            · rw [if_neg hj]
              exact Nat.zero_testBit _
          rw [hc, Nat.testBit_succ]
          simp

/-! Helper lemmas: sorting and counting -/

theorem nodup_length_le (l : List ℕ) {M : ℕ} (hnd : l.Nodup)
    (h : ∀ x ∈ l, x < M) : l.length ≤ M := by
  have h1 : l.toFinset ⊆ Finset.range M := by
    intro x hx
    rw [List.mem_toFinset] at hx
    rw [Finset.mem_range]
    exact h x hx
  have h2 := Finset.card_le_card h1
  rwa [List.toFinset_card_of_nodup hnd, Finset.card_range] at h2

theorem pairwise_head_bound {q : ℕ} {t : List ℕ} {M : ℕ}
    (hs : (q :: t).Pairwise (· < ·)) (h : ∀ x ∈ q :: t, x < M) :
    q + t.length < M := by
  have hqt : ∀ x ∈ t, q < x := (List.pairwise_cons.mp hs).1
  have hnd : t.Nodup := ((List.pairwise_cons.mp hs).2).imp ne_of_lt
  have hsub : t.toFinset ⊆ Finset.Ioo q M := by
    intro x hx
    rw [List.mem_toFinset] at hx
    rw [Finset.mem_Ioo]
    exact ⟨hqt x hx, h x (List.mem_cons_of_mem q hx)⟩
  have hcard := Finset.card_le_card hsub
  rw [List.toFinset_card_of_nodup hnd, Nat.card_Ioo] at hcard
  have hqM : q < M := h q (List.mem_cons_self q t)
  omega

theorem mergeSort_perm_self (l : List ℕ) :
    (l.mergeSort (fun a b => a ≤ b)).Perm l :=
  List.mergeSort_perm l _

theorem mergeSort_pairwise_le (l : List ℕ) :
    (l.mergeSort (fun a b => a ≤ b)).Pairwise (· ≤ ·) := by
  have h := @List.sorted_mergeSort ℕ (fun a b : ℕ => a ≤ b)
    (fun a b c hab hbc => by
      simp only [decide_eq_true_eq] at hab hbc ⊢
      omega)
    (fun a b => by simpa using Nat.le_total a b) l
  exact h.imp (fun hx => by simpa using hx)

theorem mergeSort_nodup {l : List ℕ} (hnd : l.Nodup) :
    (l.mergeSort (fun a b => a ≤ b)).Nodup :=
  (List.Perm.nodup_iff (mergeSort_perm_self l)).mpr hnd

theorem mergeSort_pairwise_lt {l : List ℕ} (hnd : l.Nodup) :
    (l.mergeSort (fun a b => a ≤ b)).Pairwise (· < ·) :=
  List.Sorted.lt_of_le (mergeSort_pairwise_le l) (mergeSort_nodup hnd)

theorem mergeSort_mem_iff {l : List ℕ} {x : ℕ} :
    x ∈ l.mergeSort (fun a b => a ≤ b) ↔ x ∈ l :=
  List.Perm.mem_iff (mergeSort_perm_self l)

theorem mergeSort_length (l : List ℕ) :
    (l.mergeSort (fun a b => a ≤ b)).length = l.length :=
  List.length_mergeSort l

/-! Helper lemmas: the decomposition of a full index (claim C4) -/

theorem and_masks_of_lt {v : ℕ} (q : ℕ) (hv : v < 2 ^ q) : v &&& MASKS q = v := by
  apply Nat.eq_of_testBit_eq
  intro p
  rw [Nat.testBit_and]
  unfold MASKS
  rw [Nat.testBit_two_pow_sub_one]
  by_cases hp : p < q
  · simp [hp]
  · simp [hp, high_false_of_lt hv (le_of_not_lt hp)]

theorem insertZero_or (x y q : ℕ) :
    insertZero (x ||| y) q = insertZero x q ||| insertZero y q := by
  apply Nat.eq_of_testBit_eq
  intro p
  simp only [Nat.testBit_or, insertZero_testBit]
  split_ifs <;> simp [Nat.testBit_or]

theorem insertZero_small {v : ℕ} (q : ℕ) (hv : v < 2 ^ q) : insertZero v q = v := by
  unfold insertZero
  have h1 : v >>> q = 0 := by
    rw [Nat.shiftRight_eq_div_pow]
    exact Nat.div_eq_of_lt hv
  rw [h1, and_masks_of_lt q hv]
  simp [Nat.zero_shiftLeft]

theorem deleteBit_or (x y q : ℕ) :
    deleteBit (x ||| y) q = deleteBit x q ||| deleteBit y q := by
  apply Nat.eq_of_testBit_eq
  intro p
  simp only [Nat.testBit_or, deleteBit_testBit]
  split_ifs <;> simp [Nat.testBit_or]

theorem deleteBit_small {v : ℕ} (q : ℕ) (hv : v < 2 ^ q) : deleteBit v q = v := by
  unfold deleteBit
  have h1 : v >>> (q + 1) = 0 := by
    rw [Nat.shiftRight_eq_div_pow]
    exact Nat.div_eq_of_lt
      (lt_of_lt_of_le hv (Nat.pow_le_pow_right (by norm_num) (by omega)))
  rw [h1, and_masks_of_lt q hv]
  simp [Nat.zero_shiftLeft]

theorem deleteBit_and_bits (f q : ℕ) : deleteBit (f &&& BITS q) q = 0 := by
  apply Nat.eq_of_testBit_eq
  intro p
  rw [deleteBit_testBit, Nat.zero_testBit]
  by_cases hp : p < q
  · rw [if_pos hp, Nat.testBit_and]
    have : (BITS q).testBit p = false := Nat.testBit_two_pow_of_ne (by omega)
    simp [this]
  · rw [if_neg hp, Nat.testBit_and]
    have : (BITS q).testBit (p + 1) = false := Nat.testBit_two_pow_of_ne (by omega)
    simp [this]

theorem deleteBit_lt {f m q : ℕ} (hf : f < 2 ^ (m + 1)) (hq : q ≤ m) :
    deleteBit f q < 2 ^ m := by
  unfold deleteBit
  refine Nat.or_lt_two_pow ?_ ?_
  · rw [Nat.shiftRight_eq_div_pow, Nat.shiftLeft_eq]
    have h1 : f / 2 ^ (q + 1) < 2 ^ (m - q) := by
      apply Nat.div_lt_of_lt_mul
      calc f < 2 ^ (m + 1) := hf
        _ = 2 ^ (q + 1) * 2 ^ (m - q) := by
            rw [← pow_add]
            congr 1
            omega
    calc f / 2 ^ (q + 1) * 2 ^ q < 2 ^ (m - q) * 2 ^ q := by
          have hpos : 0 < 2 ^ q := Nat.pos_pow_of_pos q (by norm_num)
          exact (Nat.mul_lt_mul_right hpos).mpr h1
      _ = 2 ^ m := by
          rw [← pow_add]
          congr 1
          omega
  · calc f &&& MASKS q ≤ MASKS q := Nat.and_le_right
      _ < 2 ^ q := by
          unfold MASKS
          have := Nat.pos_pow_of_pos q (show 0 < 2 by norm_num)
          omega
      _ ≤ 2 ^ m := Nat.pow_le_pow_right (by norm_num) hq

theorem deleteBit_lt_64 {f : ℕ} (q : ℕ) (hf : f < 2 ^ 64) : deleteBit f q < 2 ^ 64 := by
  unfold deleteBit
  refine Nat.or_lt_two_pow ?_ (lt_of_le_of_lt Nat.and_le_left hf)
  rw [Nat.shiftRight_eq_div_pow, Nat.shiftLeft_eq]
  calc f / 2 ^ (q + 1) * 2 ^ q ≤ f / 2 ^ (q + 1) * 2 ^ (q + 1) :=
        Nat.mul_le_mul_left _ (Nat.pow_le_pow_right (by norm_num) (by omega))
    _ ≤ f := Nat.div_mul_le_self f _
    _ < 2 ^ 64 := hf

theorem insertZero_deleteBit_or (f q : ℕ) (hf : f < 2 ^ 64) :
    insertZero (deleteBit f q) q ||| (f &&& BITS q) = f := by
  apply Nat.eq_of_testBit_eq
  intro p
  rw [Nat.testBit_or, insertZero_testBit, Nat.testBit_and]
  rcases lt_trichotomy p q with h | h | h
  · rw [if_pos h, deleteBit_testBit, if_pos h]
    have : (BITS q).testBit p = false := Nat.testBit_two_pow_of_ne (by omega)
    simp [this]
  · subst h
    rw [if_neg (by omega)]
    rw [if_neg (by omega)]
    have ht : (BITS p).testBit p = true := Nat.testBit_two_pow_self
    simp [ht]
  · rw [if_neg (by omega)]
    by_cases h64 : p < 64
    · rw [if_pos ⟨h, h64⟩, deleteBit_testBit, if_neg (by omega)]
      have he : p - 1 + 1 = p := by omega
      rw [he]
      have : (BITS q).testBit p = false := Nat.testBit_two_pow_of_ne (by omega)
      simp [this]
    · rw [if_neg (by tauto)]
      have h1 : f.testBit p = false := high_false_of_lt hf (by omega)
      have h2 : (BITS q).testBit p = false := Nat.testBit_two_pow_of_ne (by omega)
      simp [h1, h2]

theorem orFold_append (l1 l2 : List ℕ) :
    orFold (l1 ++ l2) = orFold l1 ||| orFold l2 := by
  induction l1 with
  | nil => simp [orFold]
  | cons q t ih =>
      rw [List.cons_append, orFold_cons, orFold_cons, ih, Nat.or_assoc]

theorem orFold_lt (l : List ℕ) {M : ℕ} (h : ∀ x ∈ l, x < M) : orFold l < 2 ^ M := by
  induction l with
  | nil => exact Nat.pos_pow_of_pos M (by norm_num)
  | cons q t ih =>
      rw [orFold_cons]
      refine Nat.or_lt_two_pow ?_ (ih (fun x hx => h x (List.mem_cons_of_mem q hx)))
      exact Nat.pow_lt_pow_right (by norm_num) (h q (List.mem_cons_self q t))

theorem orFold_testBit (l : List ℕ) (p : ℕ) :
    (orFold l).testBit p = true ↔ p ∈ l := by
  induction l with
  | nil => simp [orFold, Nat.zero_testBit]
  | cons q t ih =>
      rw [orFold_cons, Nat.testBit_or, Bool.or_eq_true, ih, List.mem_cons]
      constructor
      · rintro (h | h)
        · left
          unfold BITS at h
          rw [Nat.testBit_two_pow] at h
          have hqp : q = p := by simpa using h
          exact hqp.symm
        · right
          exact h
      · rintro (h | h)
        · left
          subst h
          exact Nat.testBit_two_pow_self
        · right
          exact h

theorem deleteBit_and_orFold (f : ℕ) (l : List ℕ) {q : ℕ} (h : ∀ x ∈ l, x < q) :
    deleteBit f q &&& orFold l = f &&& orFold l := by
  apply Nat.eq_of_testBit_eq
  intro p
  rw [Nat.testBit_and, Nat.testBit_and]
  by_cases hp : (orFold l).testBit p = true
  · have hpl : p ∈ l := (orFold_testBit l p).mp hp
    have hpq : p < q := h p hpl
    rw [deleteBit_testBit, if_pos hpq]
  · have hp' : (orFold l).testBit p = false := by
      revert hp
      cases (orFold l).testBit p <;> simp
    simp [hp']

theorem and_orFold_lt (f : ℕ) (l : List ℕ) {q : ℕ} (h : ∀ x ∈ l, x < q) :
    f &&& orFold l < 2 ^ q :=
  Nat.and_lt_two_pow f (orFold_lt l h)

theorem decomp_exists (Qs : List ℕ) (hs : Qs.Pairwise (· < ·)) :
    ∀ f : ℕ, f < 2 ^ 64 →
      index0 Qs (removeBits Qs f) ||| (f &&& orFold Qs) = f := by
  induction Qs using List.reverseRecOn with
  | nil =>
      intro f _
      show f ||| (f &&& orFold []) = f
      simp [orFold]
  | append_singleton l q ih =>
      intro f hf
      have hpw := List.pairwise_append.mp hs
      have hsl : l.Pairwise (· < ·) := hpw.1
      have hlq : ∀ x ∈ l, x < q := fun x hx =>
        hpw.2.2 x hx q (List.mem_singleton_self q)
      have hf' : deleteBit f q < 2 ^ 64 := deleteBit_lt_64 q hf
      have hih := ih hsl (deleteBit f q) hf'
      rw [index0_append, removeBits_append, orFold_append]
      have hsupp : insertZero (deleteBit f q &&& orFold l) q = deleteBit f q &&& orFold l :=
        insertZero_small q (and_orFold_lt _ l hlq)
      have hq1 : orFold [q] = BITS q := by simp [orFold]
      calc insertZero (index0 l (removeBits l (deleteBit f q))) q |||
            (f &&& (orFold l ||| orFold [q]))
          = insertZero (index0 l (removeBits l (deleteBit f q))) q |||
            ((f &&& orFold l) ||| (f &&& BITS q)) := by
            rw [hq1, Nat.and_or_distrib_left]
        _ = (insertZero (index0 l (removeBits l (deleteBit f q))) q |||
            (deleteBit f q &&& orFold l)) ||| (f &&& BITS q) := by
            rw [deleteBit_and_orFold f l hlq, Nat.or_assoc]
        _ = (insertZero (index0 l (removeBits l (deleteBit f q))) q |||
            insertZero (deleteBit f q &&& orFold l) q) ||| (f &&& BITS q) := by
            rw [hsupp]
        _ = insertZero (index0 l (removeBits l (deleteBit f q)) |||
            (deleteBit f q &&& orFold l)) q ||| (f &&& BITS q) := by
            rw [insertZero_or]
        _ = insertZero (deleteBit f q) q ||| (f &&& BITS q) := by
            rw [hih]
        _ = f := insertZero_deleteBit_or f q hf

theorem removeBits_lt (Qs : List ℕ) (hs : Qs.Pairwise (· < ·)) {f M : ℕ}
    (hf : f < 2 ^ M) (hq : ∀ q ∈ Qs, q < M) :
    removeBits Qs f < 2 ^ (M - Qs.length) := by
  induction Qs generalizing f with
  | nil => simpa using hf
  | cons q t ih =>
      rw [removeBits_cons]
      have hqb : q + t.length < M := pairwise_head_bound hs hq
      have hrec : removeBits t f < 2 ^ (M - t.length) :=
        ih (List.pairwise_cons.mp hs).2 hf
          (fun x hx => hq x (List.mem_cons_of_mem q hx))
      have hm1 : M - t.length = (M - t.length - 1) + 1 := by omega
      rw [hm1] at hrec
      have := deleteBit_lt hrec (show q ≤ M - t.length - 1 by omega)
      have he : M - (q :: t).length = M - t.length - 1 := by
        rw [List.length_cons]
        omega
      rwa [he]

theorem removeBits_or_supported (Qs : List ℕ) (hs : Qs.Pairwise (· < ·)) :
    ∀ x p : ℕ, p &&& orFold Qs = p → removeBits Qs (x ||| p) = removeBits Qs x := by
  induction Qs using List.reverseRecOn with
  | nil =>
      intro x p hp
      have : p = 0 := by
        rw [← hp]
        simp [orFold]
      subst this
      rw [Nat.or_zero]
  | append_singleton l q ih =>
      intro x p hp
      have hpw := List.pairwise_append.mp hs
      have hsl : l.Pairwise (· < ·) := hpw.1
      have hlq : ∀ y ∈ l, y < q := fun y hy =>
        hpw.2.2 y hy q (List.mem_singleton_self q)
      rw [removeBits_append, removeBits_append, deleteBit_or]
      have hdecomp : deleteBit p q = p &&& orFold l := by
        conv_lhs => rw [← hp]
        rw [orFold_append, Nat.and_or_distrib_left, deleteBit_or]
        rw [show orFold [q] = BITS q ||| 0 from rfl, Nat.or_zero]
        rw [deleteBit_small q (and_orFold_lt p l hlq), deleteBit_and_bits, Nat.or_zero]
      rw [hdecomp]
      refine ih hsl (deleteBit x q) (p &&& orFold l) ?_
      rw [Nat.and_assoc, Nat.and_self]

theorem index0_and_orFold (Qs : List ℕ) (hs : Qs.Pairwise (· < ·)) (k : ℕ) :
    index0 Qs k &&& orFold Qs = 0 := by
  apply Nat.eq_of_testBit_eq
  intro p
  rw [Nat.testBit_and, Nat.zero_testBit]
  by_cases hp : p ∈ Qs
  · rw [index0_testBit_mem Qs k hs hp]
    simp
  · have h2 : (orFold Qs).testBit p = false := by
      cases h : (orFold Qs).testBit p
      · rfl
      · exact absurd ((orFold_testBit Qs p).mp h) hp
    simp [h2]

theorem orSel_zero (qs : List ℕ) : orSel qs 0 = 0 := by
  induction qs with
  | nil => rfl
  | cons q t ih =>
      rw [orSel_cons]
      norm_num
      rw [ih]

theorem and_or_distrib_right (x y z : ℕ) :
    (x ||| y) &&& z = (x &&& z) ||| (y &&& z) := by
  rw [Nat.and_comm, Nat.and_or_distrib_left, Nat.and_comm z x, Nat.and_comm z y]

/-! Claims C1 to C4: the bit-index engine -/

/-- Claim C1: for a duplicate-free qubit list `Q` with positions below 64, a
total qubit count `M` at least `max Q + 1`, and a reduced index
`k < 2^(M - N)`, the block `indexes(Q, sort(Q), k)` has `2^N` entries, all
below `2^M`, pairwise distinct, entry `0` is `index0(sort(Q), k)`, every
entry is entry `0` OR the `BITS` values of some subset of `Q`, and entries
agree with entry `0` on every bit position outside `Q`. -/
theorem C1_indexes_block (Q Qs : List ℕ) (M k : ℕ)
    (hQs : Qs = Q.mergeSort (fun a b => a ≤ b)) (hnd : Q.Nodup)
    (h64 : ∀ q ∈ Q, q < 64) (hM : ∀ q ∈ Q, q < M)
    (hk : k < 2 ^ (M - Q.length)) :
    (indexes Q Qs k).length = 2 ^ Q.length ∧
    (∀ j, j < 2 ^ Q.length → (indexes Q Qs k).getD j 0 < 2 ^ M) ∧
    (∀ j1 j2, j1 < 2 ^ Q.length → j2 < 2 ^ Q.length → j1 ≠ j2 →
      (indexes Q Qs k).getD j1 0 ≠ (indexes Q Qs k).getD j2 0) ∧
    (indexes Q Qs k).getD 0 0 = index0 Qs k ∧
    (∀ j, j < 2 ^ Q.length → ∃ s : List ℕ, s.Sublist Q ∧
      (indexes Q Qs k).getD j 0 = (indexes Q Qs k).getD 0 0 ||| orFold s) ∧
    (∀ j, j < 2 ^ Q.length → ∀ p, p ∉ Q →
      ((indexes Q Qs k).getD j 0).testBit p =
        ((indexes Q Qs k).getD 0 0).testBit p) := by
  subst hQs
  have hlen : Q.length = (Q.mergeSort (fun a b => a ≤ b)).length :=
    (mergeSort_length Q).symm
  have hsort : (Q.mergeSort (fun a b => a ≤ b)).Pairwise (· < ·) :=
    mergeSort_pairwise_lt hnd
  have hNM : Q.length ≤ M := nodup_length_le Q hnd hM
  have hEq : indexes Q (Q.mergeSort (fun a b => a ≤ b)) k =
      buildBlock (index0 (Q.mergeSort (fun a b => a ≤ b)) k) Q :=
    indexes_eq_buildBlock _ _ _ hlen
  have hb0lt : index0 (Q.mergeSort (fun a b => a ≤ b)) k < 2 ^ M := by
    have h1 := index0_lt (Q.mergeSort (fun a b => a ≤ b)) hk
    rw [← hlen] at h1
    have he : M - Q.length + Q.length = M := by omega
    rwa [he] at h1
  have hb0bits : ∀ q ∈ Q,
      (index0 (Q.mergeSort (fun a b => a ≤ b)) k).testBit q = false := fun q hq =>
    index0_testBit_mem _ k hsort (mergeSort_mem_iff.mpr hq)
  have hget : ∀ j, j < 2 ^ Q.length →
      (indexes Q (Q.mergeSort (fun a b => a ≤ b)) k).getD j 0 =
        index0 (Q.mergeSort (fun a b => a ≤ b)) k ||| orSel Q j := fun j hj => by
    rw [hEq]
    exact buildBlock_getD Q _ hj
  have hpos : 0 < 2 ^ Q.length := Nat.pos_pow_of_pos _ (by norm_num)
  have hget0 : (indexes Q (Q.mergeSort (fun a b => a ≤ b)) k).getD 0 0 =
      index0 (Q.mergeSort (fun a b => a ≤ b)) k := by
    rw [hget 0 hpos, orSel_zero, Nat.or_zero]
  have hbits : ∀ j, ∀ i, i < Q.length →
      (index0 (Q.mergeSort (fun a b => a ≤ b)) k ||| orSel Q j).testBit (Q.getD i 0) =
        j.testBit i := by
    intro j i hi
    rw [Nat.testBit_or, hb0bits (Q.getD i 0) (getD_mem_of_lt Q hi),
      orSel_testBit_getD Q hnd j hi, Bool.false_or]
  refine ⟨?_, ?_, ?_, hget0, ?_, ?_⟩
  · rw [hEq]
    exact buildBlock_length _ Q
  · intro j hj
    rw [hget j hj]
    exact Nat.or_lt_two_pow hb0lt (orSel_lt Q j hM)
  · intro j1 j2 h1 h2 hne heq
    apply hne
    rw [hget j1 h1, hget j2 h2] at heq
    apply Nat.eq_of_testBit_eq
    intro i
    by_cases hi : i < Q.length
    · have h3 := congrArg (fun x => x.testBit (Q.getD i 0)) heq
      simpa only [hbits j1 i hi, hbits j2 i hi] using h3
    · rw [high_false_of_lt h1 (le_of_not_lt hi),
        high_false_of_lt h2 (le_of_not_lt hi)]
  · intro j hj
    refine ⟨sel Q j, sel_sublist Q j, ?_⟩
    rw [hget j hj, hget0, orSel_eq_orFold_sel]
  · intro j hj p hp
    rw [hget j hj, hget0, Nat.testBit_or, orSel_testBit_not_mem Q j hp,
      Bool.or_false]

/-- Claim C1 witness: the block for `Q = [4, 1]`, `M = 9`, `k = 77`. -/
theorem C1_witness :
    (indexes [4, 1] ([4, 1].mergeSort (fun a b => a ≤ b)) 77).length = 2 ^ 2 ∧
    (∀ j, j < 2 ^ 2 →
      (indexes [4, 1] ([4, 1].mergeSort (fun a b => a ≤ b)) 77).getD j 0 < 2 ^ 9) ∧
    (∀ j1 j2, j1 < 2 ^ 2 → j2 < 2 ^ 2 → j1 ≠ j2 →
      (indexes [4, 1] ([4, 1].mergeSort (fun a b => a ≤ b)) 77).getD j1 0 ≠
        (indexes [4, 1] ([4, 1].mergeSort (fun a b => a ≤ b)) 77).getD j2 0) ∧
    (indexes [4, 1] ([4, 1].mergeSort (fun a b => a ≤ b)) 77).getD 0 0 =
      index0 ([4, 1].mergeSort (fun a b => a ≤ b)) 77 ∧
    (∀ j, j < 2 ^ 2 → ∃ s : List ℕ, s.Sublist [4, 1] ∧
      (indexes [4, 1] ([4, 1].mergeSort (fun a b => a ≤ b)) 77).getD j 0 =
        (indexes [4, 1] ([4, 1].mergeSort (fun a b => a ≤ b)) 77).getD 0 0 ||| orFold s) ∧
    (∀ j, j < 2 ^ 2 → ∀ p, p ∉ ([4, 1] : List ℕ) →
      ((indexes [4, 1] ([4, 1].mergeSort (fun a b => a ≤ b)) 77).getD j 0).testBit p =
        ((indexes [4, 1] ([4, 1].mergeSort (fun a b => a ≤ b)) 77).getD 0 0).testBit p) := by
  have h := C1_indexes_block [4, 1] ([4, 1].mergeSort (fun a b => a ≤ b)) 9 77 rfl
    (by decide) (by decide) (by decide) (by decide)
  simpa using h

/-- Claim C2: the fixed-size and variable-size index-block functions produce
the same index sequence, element for element, for every qubit list (paired
with its sorted copy) and every reduced index. -/
theorem C2_fixed_eq_variable (qubits : List ℕ) (k : ℕ) :
    indexesFixed qubits (qubits.mergeSort (fun a b => a ≤ b)) k =
      indexes qubits (qubits.mergeSort (fun a b => a ≤ b)) k := by
  unfold indexesFixed indexes
  rw [mergeSort_length]

/-- Claim C3: for `qubits = qubits_sorted = [1, 4]` and `k = 77`, `index0`
returns 297 and the block is `[297, 299, 313, 315]` in that order. -/
theorem C3_concrete_example :
    index0 [1, 4] 77 = 297 ∧ indexes [1, 4] [1, 4] 77 = [297, 299, 313, 315] := by
  constructor
  · decide
  · decide

/-- Claim C4 counterexample: with `Q_sorted = [0]` (sorted, duplicate-free,
position below 64), `M = 65 ≥ max + 1` and `k = 2^63 + 1 < 2^(65-1)`, reading
back the spectator bits of `index0([0], k)` does not reproduce `k`: the
`uint64_t` left shift inside `index0` wraps and the high bit of `k` is lost.
So the claim fails as stated for total qubit counts above 64. -/
theorem C4_counterexample :
    ([0] : List ℕ).Pairwise (· < ·) ∧ (∀ q ∈ ([0] : List ℕ), q < 64) ∧
    (∀ q ∈ ([0] : List ℕ), q < 65) ∧
    2 ^ 63 + 1 < 2 ^ (65 - ([0] : List ℕ).length) ∧
    removeBits [0] (index0 [0] (2 ^ 63 + 1)) ≠ 2 ^ 63 + 1 := by
  refine ⟨by decide, by decide, by decide, by norm_num, by decide⟩

/-- Claim C4 (amended with `M ≤ 64`, which the counterexample above forces):
for a sorted duplicate-free qubit list with positions below 64 and a total
qubit count `M` with `max Q < M ≤ 64`, reading back the spectator bits of
`index0(Q_sorted, k)` reproduces every `k < 2^(M-N)`, and every full index
`f < 2^M` decomposes as `index0(Q_sorted, k) | pattern` with the pattern
supported on the positions of `Q_sorted` for exactly one pair
`(k, pattern)`. -/
theorem C4_index0_bijection (Qs : List ℕ) (M : ℕ) (hs : Qs.Pairwise (· < ·))
    (h64 : ∀ q ∈ Qs, q < 64) (hM : ∀ q ∈ Qs, q < M) (hM64 : M ≤ 64) :
    (∀ k, k < 2 ^ (M - Qs.length) → removeBits Qs (index0 Qs k) = k) ∧
    (∀ f, f < 2 ^ M → ∃! kp : ℕ × ℕ,
      kp.1 < 2 ^ (M - Qs.length) ∧ kp.2 &&& orFold Qs = kp.2 ∧
      index0 Qs kp.1 ||| kp.2 = f) := by
  have hnd : Qs.Nodup := hs.imp ne_of_lt
  have hNM : Qs.length ≤ M := nodup_length_le Qs hnd hM
  have hsum : M - Qs.length + Qs.length ≤ 64 := by omega
  constructor
  · intro k hk
    exact removeBits_index0 Qs hk hsum
  · intro f hf
    have hf64 : f < 2 ^ 64 :=
      lt_of_lt_of_le hf (Nat.pow_le_pow_right (by norm_num) hM64)
    refine ⟨(removeBits Qs f, f &&& orFold Qs),
      ⟨removeBits_lt Qs hs hf hM, ?_, ?_⟩, ?_⟩
    · rw [Nat.and_assoc, Nat.and_self]
    · exact decomp_exists Qs hs f hf64
    · rintro ⟨k1, p1⟩ ⟨hk1, hp1, he1⟩
      have hpval : p1 = f &&& orFold Qs := by
        rw [← he1, and_or_distrib_right, index0_and_orFold Qs hs, Nat.zero_or, hp1]
      have hkval : k1 = removeBits Qs f := by
        rw [← he1, removeBits_or_supported Qs hs _ p1 hp1,
          removeBits_index0 Qs hk1 hsum]
      rw [hpval, hkval]

/-- Claim C4 witness: the amended bijection at `Q_sorted = [1, 4]`, `M = 9`. -/
theorem C4_witness :
    (∀ k, k < 2 ^ (9 - ([1, 4] : List ℕ).length) →
      removeBits [1, 4] (index0 [1, 4] k) = k) ∧
    (∀ f, f < 2 ^ 9 → ∃! kp : ℕ × ℕ,
      kp.1 < 2 ^ (9 - ([1, 4] : List ℕ).length) ∧
      kp.2 &&& orFold [1, 4] = kp.2 ∧ index0 [1, 4] kp.1 ||| kp.2 = f) :=
  C4_index0_bijection [1, 4] 9 (by decide) (by decide) (by decide) (by decide)

/-! Helper lemmas: traversal loops -/

theorem applyLoop_eq (qubits qubits_sorted : List ℕ) (END : ℕ) :
    ∀ k, applyLoop qubits qubits_sorted END k =
      (List.range' k (END - k)).map (fun j => indexes qubits qubits_sorted j) := by
  intro k
  generalize h : END - k = n
  induction n generalizing k with
  | zero =>
      rw [applyLoop, if_neg (by omega)]
      rfl
  | succ n ih =>
      rw [applyLoop, if_pos (by omega)]
      rw [ih (k + 1) (by omega)]
      rw [List.range'_succ, List.map_cons]

theorem mosqLoop_eq (qubits : List ℕ) (stop : ℕ) :
    ∀ k, mosqLoop qubits stop k =
      (List.range' k (stop - k)).filter (fun j => foldParity qubits j) := by
  intro k
  generalize h : stop - k = n
  induction n generalizing k with
  | zero =>
      rw [mosqLoop, if_neg (by omega)]
      rfl
  | succ n ih =>
      rw [mosqLoop, if_pos (by omega)]
      rw [ih (k + 1) (by omega)]
      rw [List.range'_succ, List.filter_cons]
      by_cases hp : foldParity qubits k
      · rw [if_pos hp, if_pos hp]
        rfl
      · rw [if_neg hp, if_neg (by simpa using hp)]
        rfl

theorem foldParity_from (qubits : List ℕ) (k : ℕ) :
    ∀ b, qubits.foldl (fun parity index => xor parity (((k >>> index) &&& 1) == 1)) b =
      xor b (decide ((qubits.map (fun q => (k >>> q) &&& 1)).sum % 2 = 1)) := by
  induction qubits with
  | nil =>
      intro b
      simp
  | cons q t ih =>
      intro b
      rw [List.foldl_cons, ih, List.map_cons, List.sum_cons]
      have hx : (k >>> q) &&& 1 = (k >>> q) % 2 := Nat.and_one_is_mod _
      rcases Nat.mod_two_eq_zero_or_one (k >>> q) with h0 | h0
      · have hA : (k >>> q) &&& 1 = 0 := by omega
        have hc : (((k >>> q) &&& 1) == 1) = false := by
          rw [hA]
          rfl
        have hm : (((k >>> q) &&& 1) + (t.map (fun q => (k >>> q) &&& 1)).sum) % 2 =
            (t.map (fun q => (k >>> q) &&& 1)).sum % 2 := by omega
        rw [hc]
        simp only [hm]
        cases b <;> rfl
      · have hA : (k >>> q) &&& 1 = 1 := by omega
        have hc : (((k >>> q) &&& 1) == 1) = true := by
          rw [hA]
          rfl
        rw [hc]
        rcases Nat.mod_two_eq_zero_or_one (t.map (fun q => (k >>> q) &&& 1)).sum with h2 | h2
        · have hm : (((k >>> q) &&& 1) + (t.map (fun q => (k >>> q) &&& 1)).sum) % 2 = 1 := by
            omega
          simp only [hm, h2]
          cases b <;> rfl
        · have hm : (((k >>> q) &&& 1) + (t.map (fun q => (k >>> q) &&& 1)).sum) % 2 = 0 := by
            omega
          simp only [hm, h2]
          cases b <;> rfl

theorem foldParity_eq (qubits : List ℕ) (k : ℕ) :
    foldParity qubits k =
      decide ((qubits.map (fun q => (k >>> q) &&& 1)).sum % 2 = 1) := by
  unfold foldParity
  rw [foldParity_from qubits k false]
  cases hd : decide ((qubits.map (fun q => (k >>> q) &&& 1)).sum % 2 = 1) <;> rfl

/-! Claims C9 and C10: the traversal primitives -/

/-- Claim C9: in the sequential case, the qubit-list traversal invokes the
update function exactly once for each reduced index `k` from `start` up to
`(stop >> N) - 1`, in increasing order, each time on the index block
`indexes(qubits, sorted(qubits), k)` (the sorted list being derived once,
before the loop, inside `apply_lambda_seq`). -/
theorem C9_apply_lambda_seq_trace (start stop : ℕ) (qubits : List ℕ) :
    (apply_lambda_seq start stop qubits).length = stop >>> qubits.length - start ∧
    (∀ i, i < stop >>> qubits.length - start →
      (apply_lambda_seq start stop qubits).getD i [] =
        indexes qubits (qubits.mergeSort (fun a b => a ≤ b)) (start + i)) := by
  have h : apply_lambda_seq start stop qubits =
      (List.range' start (stop >>> qubits.length - start)).map
        (fun j => indexes qubits (qubits.mergeSort (fun a b => a ≤ b)) j) := by
    unfold apply_lambda_seq
    exact applyLoop_eq _ _ _ start
  rw [h]
  constructor
  · rw [List.length_map, List.length_range']
  · intro i hi
    rw [List.getD_eq_getElem?_getD, List.getElem?_map, List.getElem?_range' _ _ hi]
    simp

/-- Claim C10 (implicit): in the sequential case, `apply_lambda_MOSQ`
forwards to the lambda exactly those `k` in `[start, stop)` whose selected
bits (the bits of `k` at the positions listed in the qubit list) have XOR
equal to 1, i.e. odd bit-sum, in increasing order of `k`. -/
theorem C10_apply_lambda_MOSQ_trace (start stop : ℕ) (qubits : List ℕ) :
    apply_lambda_MOSQ_seq start stop qubits =
      (List.range' start (stop - start)).filter (fun k => foldParity qubits k) ∧
    (∀ k, k ∈ apply_lambda_MOSQ_seq start stop qubits ↔
      (start ≤ k ∧ k < stop ∧
        (qubits.map (fun q => (k >>> q) &&& 1)).sum % 2 = 1)) ∧
    (apply_lambda_MOSQ_seq start stop qubits).Pairwise (· < ·) := by
  have h : apply_lambda_MOSQ_seq start stop qubits =
      (List.range' start (stop - start)).filter (fun k => foldParity qubits k) :=
    mosqLoop_eq qubits stop start
  refine ⟨h, ?_, ?_⟩
  · intro k
    rw [h, List.mem_filter, List.mem_range']
    constructor
    · rintro ⟨⟨i, hi, rfl⟩, hp⟩
      rw [foldParity_eq] at hp
      refine ⟨by omega, by omega, by simpa using hp⟩
    · rintro ⟨h1, h2, h3⟩
      refine ⟨⟨k - start, by omega, by omega⟩, ?_⟩
      rw [foldParity_eq]
      simpa using h3
  · rw [h]
    exact List.Pairwise.sublist (List.filter_sublist _) (List.pairwise_lt_range' _ _ 1)

/-! Helper lemmas: the Kraus selection loop -/

theorem partialSum_zero {α : Type} (normf : α → ℚ) (kmats : List α) :
    partialSum normf kmats 0 = 0 := by
  simp [partialSum]

theorem partialSum_succ {α : Type} (normf : α → ℚ) (kmats : List α) {j : ℕ}
    (h : j < kmats.length) :
    partialSum normf kmats (j + 1) =
      partialSum normf kmats j + normf (kmats.get ⟨j, h⟩) := by
  unfold partialSum
  rw [List.take_succ, List.getElem?_eq_getElem h, Option.toList_some, List.map_append,
    List.sum_append]
  simp [List.get_eq_getElem]

theorem krausLoop_ne_noop {α : Type} (kmats : List α) (lastMat : α)
    (normf : α → ℚ) (r : ℚ) :
    ∀ j accum, krausLoop kmats lastMat normf r j accum ≠ KrausResult.noop := by
  suffices hsuf : ∀ n j accum, kmats.length - 1 - j = n →
      krausLoop kmats lastMat normf r j accum ≠ KrausResult.noop by
    intro j accum
    exact hsuf _ j accum rfl
  intro n
  induction n with
  | zero =>
      intro j accum hn
      rw [krausLoop, dif_neg (by omega)]
      simp
  | succ n ih =>
      intro j accum hn
      have h : j < kmats.length - 1 := by omega
      rw [krausLoop, dif_pos h]
      by_cases hr : accum + normf (kmats.get ⟨j, lt_of_lt_of_le h (Nat.sub_le _ _)⟩) > r
      · rw [if_pos hr]
        simp
      · rw [if_neg hr]
        exact ih (j + 1) _ (by omega)

theorem krausLoop_fallback_eq {α : Type} (kmats : List α) (lastMat : α)
    (normf : α → ℚ) (r : ℚ)
    (hall : ∀ i, i + 1 ≤ kmats.length - 1 → partialSum normf kmats (i + 1) ≤ r) :
    ∀ n j, kmats.length - 1 - j = n → j ≤ kmats.length - 1 →
      krausLoop kmats lastMat normf r j (partialSum normf kmats j) =
        KrausResult.fallback lastMat (partialSum normf kmats (kmats.length - 1)) := by
  intro n
  induction n with
  | zero =>
      intro j hn hj
      have hje : j = kmats.length - 1 := by omega
      rw [krausLoop, dif_neg (by omega), hje]
  | succ n ih =>
      intro j hn hj
      have h : j < kmats.length - 1 := by omega
      have hjlen : j < kmats.length := by omega
      rw [krausLoop, dif_pos h]
      have hstep : partialSum normf kmats j +
          normf (kmats.get ⟨j, lt_of_lt_of_le h (Nat.sub_le _ _)⟩) =
          partialSum normf kmats (j + 1) :=
        (partialSum_succ normf kmats hjlen).symm
      have hr : ¬(partialSum normf kmats j +
          normf (kmats.get ⟨j, lt_of_lt_of_le h (Nat.sub_le _ _)⟩) > r) := by
        rw [hstep]
        exact not_lt.mpr (hall j (by omega))
      rw [if_neg hr, hstep]
      exact ih (j + 1) (by omega) (by omega)

theorem krausLoop_triggered_eq {α : Type} (kmats : List α) (lastMat : α)
    (normf : α → ℚ) (r : ℚ) (i : ℕ) (hi : i < kmats.length - 1)
    (hilen : i < kmats.length)
    (hfirst : ∀ i2, i2 < i → partialSum normf kmats (i2 + 1) ≤ r)
    (htrig : partialSum normf kmats (i + 1) > r) :
    ∀ n j, i - j = n → j ≤ i →
      krausLoop kmats lastMat normf r j (partialSum normf kmats j) =
        KrausResult.triggered i (kmats.get ⟨i, hilen⟩)
          (normf (kmats.get ⟨i, hilen⟩)) := by
  intro n
  induction n with
  | zero =>
      intro j hn hj
      have hje : j = i := by omega
      subst hje
      rw [krausLoop, dif_pos hi]
      have hstep : partialSum normf kmats j +
          normf (kmats.get ⟨j, lt_of_lt_of_le hi (Nat.sub_le _ _)⟩) =
          partialSum normf kmats (j + 1) :=
        (partialSum_succ normf kmats hilen).symm
      have hr : partialSum normf kmats j +
          normf (kmats.get ⟨j, lt_of_lt_of_le hi (Nat.sub_le _ _)⟩) > r := by
        rw [hstep]
        exact htrig
      rw [if_pos hr]
  | succ n ih =>
      intro j hn hj
      have h : j < kmats.length - 1 := by omega
      have hjlen : j < kmats.length := by omega
      rw [krausLoop, dif_pos h]
      have hstep : partialSum normf kmats j +
          normf (kmats.get ⟨j, lt_of_lt_of_le h (Nat.sub_le _ _)⟩) =
          partialSum normf kmats (j + 1) :=
        (partialSum_succ normf kmats hjlen).symm
      have hr : ¬(partialSum normf kmats j +
          normf (kmats.get ⟨j, lt_of_lt_of_le h (Nat.sub_le _ _)⟩) > r) := by
        rw [hstep]
        exact not_lt.mpr (hfirst j (by omega))
      rw [if_neg hr, hstep]
      exact ih (j + 1) (by omega) (by omega)

theorem krausLoop_congr {α : Type} (kmats : List α) (lastMat : α)
    (normf normf2 : α → ℚ) (r : ℚ)
    (hagree : ∀ i (h : i < kmats.length - 1),
      normf2 (kmats.get ⟨i, lt_of_lt_of_le h (Nat.sub_le _ _)⟩) =
        normf (kmats.get ⟨i, lt_of_lt_of_le h (Nat.sub_le _ _)⟩)) :
    ∀ n j accum, kmats.length - 1 - j = n →
      krausLoop kmats lastMat normf2 r j accum =
        krausLoop kmats lastMat normf r j accum := by
  intro n
  induction n with
  | zero =>
      intro j accum hn
      rw [krausLoop, dif_neg (by omega), krausLoop, dif_neg (by omega)]
  | succ n ih =>
      intro j accum hn
      have h : j < kmats.length - 1 := by omega
      conv_lhs => rw [krausLoop]
      conv_rhs => rw [krausLoop]
      rw [dif_pos h, dif_pos h]
      rw [hagree j h]
      by_cases hr : accum + normf (kmats.get ⟨j, lt_of_lt_of_le h (Nat.sub_le _ _)⟩) > r
      · rw [if_pos hr, if_pos hr]
      · rw [if_neg hr, if_neg hr]
        exact ih (j + 1) _ (by omega)

/-! Claims C5 and C6: the Kraus channel sampler -/

/-- Claim C5: with a non-empty operator list, `apply_kraus` applies exactly
one operator: it never returns without an application; if `i` is the first
index (among the first `N-1` operators) whose accumulated probability
exceeds `r`, it applies operator `i` rescaled by `1/sqrt` of its own
probability; if no prefix sum exceeds `r`, it applies the last operator
rescaled by `1/sqrt(1 - accumulated)`, where `accumulated` is the sum of the
first `N-1` probabilities; and the outcome never depends on the probability
of the last operator (it is never computed). -/
theorem C5_apply_kraus_selection {α : Type} (kmats : List α) (normf : α → ℚ)
    (r : ℚ) (hne : kmats ≠ []) :
    apply_kraus kmats normf r ≠ KrausResult.noop ∧
    (∀ i (hi : i + 1 < kmats.length),
      (∀ i2, i2 < i → partialSum normf kmats (i2 + 1) ≤ r) →
      partialSum normf kmats (i + 1) > r →
      apply_kraus kmats normf r =
        KrausResult.triggered i (kmats.get ⟨i, Nat.lt_of_succ_lt hi⟩)
          (normf (kmats.get ⟨i, Nat.lt_of_succ_lt hi⟩))) ∧
    ((∀ i, i + 1 < kmats.length → partialSum normf kmats (i + 1) ≤ r) →
      apply_kraus kmats normf r =
        KrausResult.fallback (kmats.getLast hne)
          (partialSum normf kmats (kmats.length - 1))) ∧
    (∀ normf2 : α → ℚ,
      (∀ i (hi : i + 1 < kmats.length),
        normf2 (kmats.get ⟨i, Nat.lt_of_succ_lt hi⟩) =
          normf (kmats.get ⟨i, Nat.lt_of_succ_lt hi⟩)) →
      apply_kraus kmats normf2 r = apply_kraus kmats normf r) := by
  obtain ⟨m, rest, rfl⟩ := List.exists_cons_of_ne_nil hne
  have hps0 : partialSum normf (m :: rest) 0 = 0 := partialSum_zero normf _
  refine ⟨?_, ?_, ?_, ?_⟩
  · exact krausLoop_ne_noop (m :: rest) _ normf r 0 0
  · intro i hi hfirst htrig
    show krausLoop (m :: rest) _ normf r 0 0 = _
    rw [← hps0]
    exact krausLoop_triggered_eq (m :: rest) _ normf r i (by simp at hi ⊢; omega)
      (Nat.lt_of_succ_lt hi) hfirst htrig i 0 rfl (by omega)
  · intro hall
    show krausLoop (m :: rest) _ normf r 0 0 = _
    rw [← hps0]
    exact krausLoop_fallback_eq (m :: rest) _ normf r
      (fun i h => hall i (by simp at h ⊢; omega)) _ 0 rfl (by omega)
  · intro normf2 hagree
    show krausLoop (m :: rest) _ normf2 r 0 0 = krausLoop (m :: rest) _ normf r 0 0
    exact krausLoop_congr (m :: rest) _ normf normf2 r
      (fun i h => hagree i (by simp at h ⊢; omega)) _ 0 0 rfl

/-- Claim C5 witness: a two-operator channel over `α = ℕ` with
`normf m = m / 16` and `r = 1/4`; the first prefix sum `7/16` exceeds `r`,
so operator `0` is applied with `p = 7/16`. -/
theorem C5_witness :
    apply_kraus [7, 9] (fun m : ℕ => (m : ℚ) / 16) (1 / 4) ≠ KrausResult.noop ∧
    (∀ i (hi : i + 1 < ([7, 9] : List ℕ).length),
      (∀ i2, i2 < i →
        partialSum (fun m : ℕ => (m : ℚ) / 16) [7, 9] (i2 + 1) ≤ 1 / 4) →
      partialSum (fun m : ℕ => (m : ℚ) / 16) [7, 9] (i + 1) > 1 / 4 →
      apply_kraus [7, 9] (fun m : ℕ => (m : ℚ) / 16) (1 / 4) =
        KrausResult.triggered i (([7, 9] : List ℕ).get ⟨i, Nat.lt_of_succ_lt hi⟩)
          ((fun m : ℕ => (m : ℚ) / 16) (([7, 9] : List ℕ).get ⟨i, Nat.lt_of_succ_lt hi⟩))) ∧
    ((∀ i, i + 1 < ([7, 9] : List ℕ).length →
        partialSum (fun m : ℕ => (m : ℚ) / 16) [7, 9] (i + 1) ≤ 1 / 4) →
      apply_kraus [7, 9] (fun m : ℕ => (m : ℚ) / 16) (1 / 4) =
        KrausResult.fallback (([7, 9] : List ℕ).getLast (by decide))
          (partialSum (fun m : ℕ => (m : ℚ) / 16) [7, 9] (([7, 9] : List ℕ).length - 1))) ∧
    (∀ normf2 : ℕ → ℚ,
      (∀ i (hi : i + 1 < ([7, 9] : List ℕ).length),
        normf2 (([7, 9] : List ℕ).get ⟨i, Nat.lt_of_succ_lt hi⟩) =
          (fun m : ℕ => (m : ℚ) / 16) (([7, 9] : List ℕ).get ⟨i, Nat.lt_of_succ_lt hi⟩)) →
      apply_kraus [7, 9] normf2 (1 / 4) =
        apply_kraus [7, 9] (fun m : ℕ => (m : ℚ) / 16) (1 / 4)) :=
  C5_apply_kraus_selection [7, 9] (fun m : ℕ => (m : ℚ) / 16) (1 / 4) (by decide)

/-- Claim C6 counterexample: called with an empty Kraus operator list,
`apply_kraus` hits the `kmats.empty()` early return and reports nothing: the
result is the no-action outcome, not an `InvalidNoiseModel` error (the
function has no error path at all). -/
theorem C6_counterexample :
    apply_kraus ([] : List Unit) (fun _ => 0) 0 = KrausResult.noop := rfl

/-- Claim C6 (amended): with an empty Kraus operator list, `apply_kraus`
returns early without applying any operator and without raising any error
(the source comments this case "this shouldn't happen" and ends the function
early). -/
theorem C6_empty_kraus_silent {α : Type} (normf : α → ℚ) (r : ℚ) :
    apply_kraus ([] : List α) normf r = KrausResult.noop := rfl

/-! Helper lemmas: the matrices built by `measure_reset_update` -/

theorem getD_set_eq {l : List SVal} {i : ℕ} (a : SVal) (h : i < l.length) :
    (l.set i a).getD i SVal.zero = a := by
  rw [List.getD_eq_getElem?_getD, List.getElem?_set, if_pos rfl, if_pos h]
  rfl

theorem getD_set_ne {l : List SVal} {i j : ℕ} (a : SVal) (h : i ≠ j) :
    (l.set i a).getD j SVal.zero = l.getD j SVal.zero := by
  rw [List.getD_eq_getElem?_getD, List.getElem?_set, if_neg h, List.getD_eq_getElem?_getD]

theorem mdiag_getD (dim meas_state : ℕ) (p : ℚ) {i : ℕ} (hm : meas_state < dim)
    (hi : i < dim) :
    ((List.replicate dim SVal.zero).set meas_state (SVal.invSqrt p)).getD i SVal.zero =
      if i = meas_state then SVal.invSqrt p else SVal.zero := by
  by_cases h : i = meas_state
  · subst h
    rw [if_pos rfl]
    exact getD_set_eq _ (by rw [List.length_replicate]; exact hm)
  · rw [if_neg h, getD_set_ne _ (fun he => h he.symm)]
    rw [List.getD_eq_getElem?_getD, List.getElem?_replicate, if_pos hi]
    rfl

theorem diagFold_length (dim f m : ℕ) (l : List ℕ) (init : List SVal) :
    ((l.foldl
      (fun perm j =>
        if j ≠ f ∧ j ≠ m then perm.set (j * dim + j) SVal.one else perm)
      init)).length = init.length := by
  induction l generalizing init with
  | nil => rfl
  | cons a rest ih =>
      rw [List.foldl_cons, ih]
      by_cases ha : a ≠ f ∧ a ≠ m
      · rw [if_pos ha, List.length_set]
      · rw [if_neg ha]

theorem diagFold_getD (dim f m : ℕ) (l : List ℕ) (hl : ∀ j ∈ l, j < dim)
    (init : List SVal) (hlen : init.length = dim * dim) (pos : ℕ) :
    ((l.foldl
      (fun perm j =>
        if j ≠ f ∧ j ≠ m then perm.set (j * dim + j) SVal.one else perm)
      init)).getD pos SVal.zero =
      if ∃ j ∈ l, (j ≠ f ∧ j ≠ m) ∧ pos = j * dim + j then SVal.one
      else init.getD pos SVal.zero := by
  induction l generalizing init with
  | nil =>
      rw [if_neg (by simp)]
      rfl
  | cons a rest ih =>
      rw [List.foldl_cons]
      have hlen2 : (if a ≠ f ∧ a ≠ m then init.set (a * dim + a) SVal.one else init).length =
          dim * dim := by
        by_cases ha : a ≠ f ∧ a ≠ m
        · rw [if_pos ha, List.length_set, hlen]
        · rw [if_neg ha, hlen]
      rw [ih (fun j hj => hl j (List.mem_cons_of_mem a hj)) _ hlen2]
      by_cases hex : ∃ j ∈ rest, (j ≠ f ∧ j ≠ m) ∧ pos = j * dim + j
      · rw [if_pos hex, if_pos ?hex2]
        case hex2 =>
          obtain ⟨j, hj, hcond⟩ := hex
          exact ⟨j, List.mem_cons_of_mem a hj, hcond⟩
      · rw [if_neg hex]
        by_cases hh : (a ≠ f ∧ a ≠ m) ∧ pos = a * dim + a
        · have hcons : ∃ j ∈ a :: rest, (j ≠ f ∧ j ≠ m) ∧ pos = j * dim + j :=
            ⟨a, List.mem_cons_self a rest, hh⟩
          rw [if_pos hh.1, if_pos hcons, hh.2]
          apply getD_set_eq
          rw [hlen]
          have ha : a < dim := hl a (List.mem_cons_self a rest)
          calc a * dim + a < a * dim + dim := by omega
            _ = (a + 1) * dim := by ring
            _ ≤ dim * dim := Nat.mul_le_mul_right dim (by omega)
        · have hnocons : ¬∃ j ∈ a :: rest, (j ≠ f ∧ j ≠ m) ∧ pos = j * dim + j := by
            rintro ⟨j, hj, hcond⟩
            rcases List.mem_cons.mp hj with rfl | hj2
            · exact hh hcond
            · exact hex ⟨j, hj2, hcond⟩
          rw [if_neg hnocons]
          by_cases ha : a ≠ f ∧ a ≠ m
          · rw [if_pos ha]
            refine getD_set_ne _ ?_
            intro he
            exact hh ⟨ha, he.symm⟩
          · rw [if_neg ha]

theorem buildPerm_length (dim f m : ℕ) :
    (buildPerm dim f m).length = dim * dim := by
  unfold buildPerm
  rw [diagFold_length]
  rw [List.length_set, List.length_set, List.length_replicate]

theorem mul_add_lt_sq {row col dim : ℕ} (hrow : row < dim) (hcol : col < dim) :
    row * dim + col < dim * dim := by
  calc row * dim + col < row * dim + dim := by omega
    _ = (row + 1) * dim := by ring
    _ ≤ dim * dim := Nat.mul_le_mul_right dim (by omega)

theorem mul_add_inj {r1 c1 r2 c2 dim : ℕ} (hc1 : c1 < dim) (hc2 : c2 < dim)
    (h : r1 * dim + c1 = r2 * dim + c2) : r1 = r2 ∧ c1 = c2 := by
  have h1 : r1 = r2 := by
    rcases Nat.lt_trichotomy r1 r2 with hlt | heq | hgt
    · have : (r1 + 1) * dim ≤ r2 * dim := Nat.mul_le_mul_right dim (by omega)
      have : r1 * dim + dim ≤ r2 * dim := by
        calc r1 * dim + dim = (r1 + 1) * dim := by ring
          _ ≤ r2 * dim := this
      omega
    · exact heq
    · have : (r2 + 1) * dim ≤ r1 * dim := Nat.mul_le_mul_right dim (by omega)
      have : r2 * dim + dim ≤ r1 * dim := by
        calc r2 * dim + dim = (r2 + 1) * dim := by ring
          _ ≤ r1 * dim := this
      omega
  subst h1
  exact ⟨rfl, by omega⟩

theorem buildPerm_getD (dim f m : ℕ) (hf : f < dim) (hm : m < dim) (hfm : f ≠ m)
    {row col : ℕ} (hrow : row < dim) (hcol : col < dim) :
    (buildPerm dim f m).getD (row * dim + col) SVal.zero =
      if (row = f ∧ col = m) ∨ (row = m ∧ col = f) ∨
         (row = col ∧ row ≠ f ∧ row ≠ m)
      then SVal.one else SVal.zero := by
  unfold buildPerm
  have hbase_len : (((List.replicate (dim * dim) SVal.zero).set (f * dim + m) SVal.one).set
      (m * dim + f) SVal.one).length = dim * dim := by
    rw [List.length_set, List.length_set, List.length_replicate]
  rw [diagFold_getD dim f m _ (fun j hj => List.mem_range.mp hj) _ hbase_len]
  by_cases hdiag : ∃ j ∈ List.range dim, (j ≠ f ∧ j ≠ m) ∧ row * dim + col = j * dim + j
  · rw [if_pos hdiag]
    obtain ⟨j, hj, ⟨hjf, hjm⟩, hpos⟩ := hdiag
    have hjd : j < dim := List.mem_range.mp hj
    obtain ⟨hr, hc⟩ := mul_add_inj hcol hjd hpos
    subst hr
    subst hc
    rw [if_pos (Or.inr (Or.inr ⟨rfl, hjf, hjm⟩))]
  · rw [if_neg hdiag]
    by_cases hmf : row = m ∧ col = f
    · obtain ⟨hr, hc⟩ := hmf
      subst hr
      subst hc
      rw [if_pos (Or.inr (Or.inl ⟨rfl, rfl⟩))]
      exact getD_set_eq _ (by rw [List.length_set, List.length_replicate]; exact mul_add_lt_sq hm hf)
    · have hne : m * dim + f ≠ row * dim + col := by
        intro he
        obtain ⟨hr, hc⟩ := mul_add_inj hf hcol he
        exact hmf ⟨hr.symm, hc.symm⟩
      rw [getD_set_ne _ hne]
      by_cases hfm2 : row = f ∧ col = m
      · obtain ⟨hr, hc⟩ := hfm2
        subst hr
        subst hc
        rw [if_pos (Or.inl ⟨rfl, rfl⟩)]
        exact getD_set_eq _ (by rw [List.length_replicate]; exact mul_add_lt_sq hf hm)
      · have hne2 : f * dim + m ≠ row * dim + col := by
          intro he
          obtain ⟨hr, hc⟩ := mul_add_inj hm hcol he
          exact hfm2 ⟨hr.symm, hc.symm⟩
        rw [getD_set_ne _ hne2]
        have hrep : (List.replicate (dim * dim) SVal.zero).getD (row * dim + col) SVal.zero =
            SVal.zero := by
          rw [List.getD_eq_getElem?_getD, List.getElem?_replicate,
            if_pos (mul_add_lt_sq hrow hcol)]
          rfl
        rw [hrep, if_neg ?hno]
        case hno =>
          rintro (⟨hr, hc⟩ | ⟨hr, hc⟩ | ⟨hrc, hrf, hrm⟩)
          · exact hfm2 ⟨hr, hc⟩
          · exact hmf ⟨hr, hc⟩
          · subst hrc
            exact hdiag ⟨row, List.mem_range.mpr hrow, ⟨hrf, hrm⟩, rfl⟩

/-! Claim C7: the measurement / reset update -/

/-- Claim C7: `measure_reset_update` applies, in the single-qubit case, a
length-2 diagonal whose only non-zero entry is `1/sqrt(meas_prob)` at
position `meas_state`, followed by a controlled bit-flip exactly when
`final_state` differs from `meas_state`; in the multi-qubit case it applies
the analogous length-`2^N` diagonal and, exactly when the states differ, the
permutation matrix that swaps basis states `final_state` and `meas_state`
and is the identity elsewhere; when they agree only the renormalizing
projection is applied. -/
theorem C7_measure_reset_update (qubits : List ℕ) (final_state meas_state : ℕ)
    (meas_prob : ℚ) (hm : meas_state < 2 ^ qubits.length)
    (hf : final_state < 2 ^ qubits.length) :
    (qubits.length = 1 →
      ∃ d : List SVal, d.length = 2 ∧
        (∀ i, i < 2 → d.getD i SVal.zero =
          if i = meas_state then SVal.invSqrt meas_prob else SVal.zero) ∧
        measure_reset_update qubits final_state meas_state meas_prob =
          MRAction.diag qubits d ::
            (if final_state ≠ meas_state then [MRAction.mcx qubits] else [])) ∧
    (qubits.length ≠ 1 →
      ∃ d : List SVal, d.length = 2 ^ qubits.length ∧
        (∀ i, i < 2 ^ qubits.length → d.getD i SVal.zero =
          if i = meas_state then SVal.invSqrt meas_prob else SVal.zero) ∧
        (final_state = meas_state →
          measure_reset_update qubits final_state meas_state meas_prob =
            [MRAction.diag qubits d]) ∧
        (final_state ≠ meas_state →
          ∃ perm : List SVal,
            perm.length = 2 ^ qubits.length * 2 ^ qubits.length ∧
            (∀ row col, row < 2 ^ qubits.length → col < 2 ^ qubits.length →
              perm.getD (row * 2 ^ qubits.length + col) SVal.zero =
                if (row = final_state ∧ col = meas_state) ∨
                   (row = meas_state ∧ col = final_state) ∨
                   (row = col ∧ row ≠ final_state ∧ row ≠ meas_state)
                then SVal.one else SVal.zero) ∧
            measure_reset_update qubits final_state meas_state meas_prob =
              [MRAction.diag qubits d, MRAction.matrix qubits perm])) := by
  constructor
  · intro h1
    refine ⟨(List.replicate 2 SVal.zero).set meas_state (SVal.invSqrt meas_prob),
      ?_, ?_, ?_⟩
    · rw [List.length_set, List.length_replicate]
    · intro i hi
      refine mdiag_getD 2 meas_state meas_prob ?_ hi
      rw [h1, pow_one] at hm
      exact hm
    · unfold measure_reset_update
      rw [if_pos h1]
  · intro h1
    refine ⟨(List.replicate (2 ^ qubits.length) SVal.zero).set meas_state
      (SVal.invSqrt meas_prob), ?_, ?_, ?_, ?_⟩
    · rw [List.length_set, List.length_replicate]
    · intro i hi
      exact mdiag_getD _ meas_state meas_prob hm hi
    · intro hfm
      unfold measure_reset_update
      rw [if_neg h1, if_neg (by simp [hfm])]
    · intro hfm
      refine ⟨buildPerm (2 ^ qubits.length) final_state meas_state, ?_, ?_, ?_⟩
      · exact buildPerm_length _ _ _
      · intro row col hrow hcol
        exact buildPerm_getD _ final_state meas_state hf hm hfm hrow hcol
      · unfold measure_reset_update
        rw [if_neg h1, if_pos hfm]

/-- Claim C7 witness: the multi-qubit case at `qubits = [0, 1]`,
`final_state = 0`, `meas_state = 3`, `meas_prob = 1/2`. -/
theorem C7_witness :
    (([0, 1] : List ℕ).length = 1 →
      ∃ d : List SVal, d.length = 2 ∧
        (∀ i, i < 2 → d.getD i SVal.zero =
          if i = 3 then SVal.invSqrt (1 / 2) else SVal.zero) ∧
        measure_reset_update [0, 1] 0 3 (1 / 2) =
          MRAction.diag [0, 1] d ::
            (if (0 : ℕ) ≠ 3 then [MRAction.mcx [0, 1]] else [])) ∧
    (([0, 1] : List ℕ).length ≠ 1 →
      ∃ d : List SVal, d.length = 2 ^ ([0, 1] : List ℕ).length ∧
        (∀ i, i < 2 ^ ([0, 1] : List ℕ).length → d.getD i SVal.zero =
          if i = 3 then SVal.invSqrt (1 / 2) else SVal.zero) ∧
        ((0 : ℕ) = 3 →
          measure_reset_update [0, 1] 0 3 (1 / 2) = [MRAction.diag [0, 1] d]) ∧
        ((0 : ℕ) ≠ 3 →
          ∃ perm : List SVal,
            perm.length = 2 ^ ([0, 1] : List ℕ).length * 2 ^ ([0, 1] : List ℕ).length ∧
            (∀ row col, row < 2 ^ ([0, 1] : List ℕ).length →
              col < 2 ^ ([0, 1] : List ℕ).length →
              perm.getD (row * 2 ^ ([0, 1] : List ℕ).length + col) SVal.zero =
                if (row = 0 ∧ col = 3) ∨ (row = 3 ∧ col = 0) ∨
                   (row = col ∧ row ≠ 0 ∧ row ≠ 3)
                then SVal.one else SVal.zero) ∧
            measure_reset_update [0, 1] 0 3 (1 / 2) =
              [MRAction.diag [0, 1] d, MRAction.matrix [0, 1] perm])) :=
  C7_measure_reset_update [0, 1] 0 3 (1 / 2) (by decide) (by decide)

/-! Helper lemmas: density extraction -/

theorem mergeSort_self_of_sorted {l : List ℕ} (h : l.Pairwise (· ≤ ·)) :
    l.mergeSort (fun a b => a ≤ b) = l :=
  List.mergeSort_of_sorted (h.imp fun hab => by simpa using hab)

theorem sorted_eq_range {l : List ℕ} {n : ℕ} (hnd : l.Nodup)
    (hlt : ∀ x ∈ l, x < n) (hlen : l.length = n)
    (hsorted : l.Pairwise (· ≤ ·)) : l = List.range n := by
  have hsub : l.toFinset ⊆ (List.range n).toFinset := by
    intro x hx
    rw [List.mem_toFinset] at hx
    rw [List.mem_toFinset, List.mem_range]
    exact hlt x hx
  have hcard : (List.range n).toFinset.card ≤ l.toFinset.card := by
    rw [List.toFinset_card_of_nodup hnd, List.toFinset_card_of_nodup (List.nodup_range n),
      List.length_range, hlen]
  have hfin : l.toFinset = (List.range n).toFinset :=
    Finset.eq_of_subset_of_card_le hsub hcard
  have hperm : l.Perm (List.range n) :=
    List.perm_of_nodup_nodup_toFinset_eq hnd (List.nodup_range n) hfin
  exact List.eq_of_perm_of_sorted hperm hsorted (List.pairwise_le_range n)

theorem range'_foldl_add (g : ℕ → ℚ × ℚ) (n : ℕ) :
    (List.range' 1 n).foldl (fun acc k => acc + g k) (g 0) =
      ∑ k ∈ Finset.range (n + 1), g k := by
  induction n with
  | zero => rw [Finset.sum_range_one]; rfl
  | succ n ih =>
      have he : 1 + 1 * n = n + 1 := by omega
      rw [List.range'_concat, List.foldl_append, ih]
      simp only [List.foldl_cons, List.foldl_nil, he]
      conv_rhs => rw [Finset.sum_range_succ]

/-! Claim C8: density extraction -/

/-- Claim C8: the saved density matrix is the 1x1 total-norm matrix for an
empty qubit list; it is the plain outer product `amp[row] * conj(amp[col])`
when the qubit list is the full sorted qubit range in order; and in every
other case it is the sum over all reduced indices `k` of the outer products
of the amplitude sub-vectors addressed by the index block of `k` (the first
block initializes the matrix, the remaining blocks accumulate by
addition). -/
theorem C8_save_density_matrix (num_qubits : ℕ) (qubits : List ℕ)
    (vec : List (ℚ × ℚ)) (hnd : qubits.Nodup)
    (hq : ∀ q ∈ qubits, q < num_qubits) :
    (qubits = [] →
      apply_save_density_matrix num_qubits qubits vec 0 0 = (qregNorm vec, 0)) ∧
    (qubits = List.range num_qubits → qubits ≠ [] →
      ∀ row col, row < 2 ^ num_qubits → col < 2 ^ num_qubits →
        apply_save_density_matrix num_qubits qubits vec row col =
          cmulQ (vec.getD row (0, 0)) (cconjQ (vec.getD col (0, 0)))) ∧
    (qubits ≠ [] → qubits ≠ List.range num_qubits →
      ∀ row col,
        apply_save_density_matrix num_qubits qubits vec row col =
          ∑ k ∈ Finset.range (2 ^ (num_qubits - qubits.length)),
            blockOuter qubits (qubits.mergeSort (fun a b => a ≤ b)) vec k row col) := by
  refine ⟨?_, ?_, ?_⟩
  · intro he
    unfold apply_save_density_matrix
    rw [if_pos he]
  · intro hr hne row col hrow hcol
    unfold apply_save_density_matrix
    rw [if_neg hne]
    unfold vec2density
    rw [if_pos ?hcond]
    case hcond =>
      subst hr
      refine ⟨List.length_range num_qubits, ?_⟩
      rw [mergeSort_self_of_sorted (List.pairwise_le_range num_qubits)]
  · intro hne hnr row col
    unfold apply_save_density_matrix
    rw [if_neg hne]
    unfold vec2density
    rw [if_neg ?hcond]
    case hcond =>
      rintro ⟨hlen, hsort⟩
      apply hnr
      have hle : qubits.Pairwise (· ≤ ·) := by
        rw [hsort]
        exact mergeSort_pairwise_le qubits
      exact sorted_eq_range hnd hq hlen hle
    have hpos : 1 ≤ 2 ^ (num_qubits - qubits.length) :=
      Nat.pos_pow_of_pos _ (by norm_num)
    have hn : 2 ^ (num_qubits - qubits.length) - 1 + 1 =
        2 ^ (num_qubits - qubits.length) := by omega
    rw [range'_foldl_add
      (fun k => blockOuter qubits (qubits.mergeSort (fun a b => a ≤ b)) vec k row col)
      (2 ^ (num_qubits - qubits.length) - 1), hn]

/-- Claim C8 witness: the general (partial-trace) path at `num_qubits = 2`,
`qubits = [1]`, and a concrete amplitude vector. -/
theorem C8_witness :
    (([1] : List ℕ) = [] →
      apply_save_density_matrix 2 [1] [(1, 0), (0, 0), (0, 0), (0, 0)] 0 0 =
        (qregNorm [(1, 0), (0, 0), (0, 0), (0, 0)], 0)) ∧
    (([1] : List ℕ) = List.range 2 → ([1] : List ℕ) ≠ [] →
      ∀ row col, row < 2 ^ 2 → col < 2 ^ 2 →
        apply_save_density_matrix 2 [1] [(1, 0), (0, 0), (0, 0), (0, 0)] row col =
          cmulQ (([(1, 0), (0, 0), (0, 0), (0, 0)] : List (ℚ × ℚ)).getD row (0, 0))
            (cconjQ (([(1, 0), (0, 0), (0, 0), (0, 0)] : List (ℚ × ℚ)).getD col (0, 0)))) ∧
    (([1] : List ℕ) ≠ [] → ([1] : List ℕ) ≠ List.range 2 →
      ∀ row col,
        apply_save_density_matrix 2 [1] [(1, 0), (0, 0), (0, 0), (0, 0)] row col =
          ∑ k ∈ Finset.range (2 ^ (2 - ([1] : List ℕ).length)),
            blockOuter [1] (([1] : List ℕ).mergeSort (fun a b => a ≤ b))
              [(1, 0), (0, 0), (0, 0), (0, 0)] k row col) :=
  C8_save_density_matrix 2 [1] [(1, 0), (0, 0), (0, 0), (0, 0)] (by decide) (by decide)

end MOSQ
